import Mathlib

/-!
Verification of the diff engine of the `diffy` repository.

The repository ships two variants of the diff engine:

* `DiffV1` — the self-contained engine (file shown as `src/unnamed/part_001`):
  a hand-written Myers shortest-edit-script differ with a bounded fallback
  (`myersDiff`, `simpleDiff`), a word tokenizer, a unified-diff parser and a
  side-by-side row builder.
* `DiffTs` — `src/src/engine/diff.ts`, the engine imported by the application
  (`App.tsx`), which delegates sequence diffing and patch parsing to the
  external `diff` npm package and keeps the chunking, path extraction and row
  building logic in-repo.

Strings are modelled as `List Char` (`Str`), which is exactly the character
content of a JavaScript string; every string primitive the source uses
(`startsWith`, `substring`, `split`, `trim`, regex matches) is embedded as an
executable function on `Str`.  JavaScript numbers are modelled as `Int`;
out-of-bounds array reads (which yield `undefined` in JavaScript) are modelled
with `Option`, and the JavaScript comparison semantics for possibly-undefined
values (`undefined < x`, `undefined === x`, `NaN` propagation) are embedded as
the `j*` helpers below.
-/

/-- Character content of a JavaScript string. -/
abbrev Str := List Char

/-- The characters of a Lean string literal, used to write `Str` constants. -/
def str (s : String) : Str := s.data

/-- JavaScript array read `a[i]`: `undefined` (here `none`) when out of bounds. -/
def jsArrGet (a : List α) (i : Int) : Option α :=
  if i < 0 then none else a[i.toNat]?

/-- JavaScript `<` where either side may be `undefined`: any comparison
involving `undefined` is `false`. -/
def jlt : Option Int → Option Int → Bool
  | some a, some b => a < b
  | _, _ => false

/-- JavaScript `>` between a number and a possibly-`undefined` value. -/
def jgt (x : Int) : Option Int → Bool
  | some p => p < x
  | none => false

/-- JavaScript `===` between a number and a possibly-`undefined` value. -/
def jeq (x : Int) : Option Int → Bool
  | some p => x == p
  | none => false

/-- `String.prototype.startsWith` on character lists. -/
def startsWithL : Str → Str → Bool
  | _, [] => true
  | [], _ :: _ => false
  | c :: s, p :: ps => c == p && startsWithL s ps

/-- `\w` character class of JavaScript regexes (ASCII word character). -/
def isWordChar (c : Char) : Bool := c.isAlphanum || c == '_'

/-- One maximal run of decimal digits, together with the rest of the input. -/
def digitRun : Str → Str × Str
  | [] => ([], [])
  | c :: rest =>
    if c.isDigit then
      let (ds, r) := digitRun rest
      (c :: ds, r)
    else ([], c :: rest)

/-- Numeric value of a digit run (`parseInt(str, 10)` on a `\d+` match). -/
def digitsToInt (ds : Str) : Int :=
  ds.foldl (fun acc c => acc * 10 + ((c.toNat : Int) - 48)) 0

/-- `String.prototype.trim` (whitespace stripped from both ends). -/
def jsTrim (s : Str) : Str :=
  ((s.dropWhile Char.isWhitespace).reverse.dropWhile Char.isWhitespace).reverse

-- ── Data model (src `types.ts`) ──────────────────────────────────

inductive DiffLineType
  | added
  | removed
  | unchanged
deriving DecidableEq, Repr

inductive EditType
  | insert
  | delete
  | equal
deriving DecidableEq, Repr

/-- `WordSegment`; `text` is `Option` because the buggy backtracking step of
`myersDiff` can emit `undefined` edit values, which flow into segments. -/
structure WordSegment where
  text : Option Str
  type : DiffLineType
deriving DecidableEq, Repr

/-- One line of a structured diff (`DiffLine` in `types.ts`). -/
structure DiffLine where
  type : DiffLineType
  content : Option Str
  oldLineNumber : Option Int
  newLineNumber : Option Int
  wordSegments : Option (List WordSegment) := none
deriving DecidableEq, Repr

structure DiffChunk where
  oldStart : Int
  oldLength : Int
  newStart : Int
  newLength : Int
  lines : List DiffLine
  id : Str
deriving DecidableEq, Repr

inductive FileDiffType
  | modified
  | added
  | deleted
  | renamed
deriving DecidableEq, Repr

structure FileDiff where
  oldPath : Str
  newPath : Str
  chunks : List DiffChunk
  type : FileDiffType
  additions : Int
  deletions : Int
deriving DecidableEq, Repr

structure SideBySideRow where
  left : Option DiffLine
  right : Option DiffLine
  chunkId : Str
  isFirstInChunk : Bool
  isCollapsedPlaceholder : Bool := false
  collapsedCount : Option Int := none
  collapsedStart : Option Int := none
deriving DecidableEq, Repr

/-- Internal edit record of the sequence differ (`Edit` in part_001). -/
structure Edit where
  type : EditType
  oldIndex : Int
  newIndex : Int
  value : Option Str
deriving DecidableEq, Repr

-- ── DiffV1: the self-contained Myers engine (src/unnamed/part_001) ──

namespace DiffV1

/-- Frontier read used by the forward pass of `myersDiff`; every reachable
read is in bounds (`Int32Array` semantics then coincide with a plain read). -/
def readV (v : Array Int) (i : Int) : Int :=
  if i < 0 then 0 else v.getD i.toNat 0

/-- Frontier read used by `backtrack`, where indices can run out of bounds;
an out-of-bounds `Int32Array` read yields `undefined` (`none`). -/
def jsVGet (v : Array Int) (i : Int) : Option Int :=
  if i < 0 then none else v[i.toNat]?

/-- Frontier write `v[idx] = x` (always in bounds in reachable states). -/
def vSet (v : Array Int) (i : Int) (x : Int) : Array Int :=
  if i < 0 then v else v.setD i.toNat x

/-- The greedy diagonal extension `while (x < N && y < M && oldArr[x] ===
newArr[y]) { x++; y++; }`.  `fuel` bounds the iteration count; callers pass
at least `N + M + 1`, which is sufficient since `x` never exceeds `N`. -/
def snake (oldArr newArr : List Str) (N M : Int) : Nat → Int → Int → Int × Int
  | 0, x, y => (x, y)
  | fuel + 1, x, y =>
    if x < N && y < M && (jsArrGet oldArr x == jsArrGet newArr y) then
      snake oldArr newArr N M fuel (x + 1) (y + 1)
    else (x, y)

/-- The diagonal walk of `backtrack`:
`while (x > prevX && y > prevY) { x--; y--; unshift equal }`. -/
def diagWalk (oldArr : List Str) (prevX prevY : Option Int) :
    Nat → Int → Int → List Edit → Int × Int × List Edit
  | 0, x, y, edits => (x, y, edits)
  | fuel + 1, x, y, edits =>
    if jgt x prevX && jgt y prevY then
      diagWalk oldArr prevX prevY fuel (x - 1) (y - 1)
        (⟨.equal, x - 1, y - 1, jsArrGet oldArr (x - 1)⟩ :: edits)
    else (x, y, edits)

/-- The trailing `while (x > 0 && y > 0)` diagonal loop of `backtrack`. -/
def finalDiag (oldArr : List Str) : Nat → Int → Int → List Edit → List Edit
  | 0, _, _, edits => edits
  | fuel + 1, x, y, edits =>
    if 0 < x && 0 < y then
      finalDiag oldArr fuel (x - 1) (y - 1)
        (⟨.equal, x - 1, y - 1, jsArrGet oldArr (x - 1)⟩ :: edits)
    else edits

/-- The `for (let d = trace.length - 1; d > 0; d--)` loop of `backtrack`.
Note the source reads `trace[d - 1]` here (the frontier as it was *before*
edit distance `d - 1` was processed). -/
def btLoop (trace : List (Array Int)) (oldArr newArr : List Str) (offset : Int)
    (walkFuel : Nat) : Nat → Int → Int → List Edit → List Edit × Int × Int
  | 0, x, y, edits => (edits, x, y)
  | d + 1, x, y, edits =>
    let dd : Int := (d : Int) + 1
    let v := trace.getD d #[]
    let k := x - y
    let prevK :=
      if k == -dd || (k != dd && jlt (jsVGet v (k - 1 + offset)) (jsVGet v (k + 1 + offset)))
      then k + 1 else k - 1
    let prevX : Option Int := jsVGet v (prevK + offset)
    let prevY : Option Int := prevX.map (· - prevK)
    let (x₁, y₁, edits₁) := diagWalk oldArr prevX prevY walkFuel x y edits
    if jeq x₁ prevX then
      btLoop trace oldArr newArr offset walkFuel d x₁ (y₁ - 1)
        (⟨.insert, x₁, y₁ - 1, jsArrGet newArr (y₁ - 1)⟩ :: edits₁)
    else
      btLoop trace oldArr newArr offset walkFuel d (x₁ - 1) y₁
        (⟨.delete, x₁ - 1, y₁, jsArrGet oldArr (x₁ - 1)⟩ :: edits₁)

/-- `backtrack(trace, oldArr, newArr, offset)` of part_001. -/
def backtrack (trace : List (Array Int)) (oldArr newArr : List Str) (offset : Int) :
    List Edit :=
  let walkFuel := oldArr.length + newArr.length + 2
  let (edits, x, y) :=
    btLoop trace oldArr newArr offset walkFuel (trace.length - 1)
      (oldArr.length : Int) (newArr.length : Int) []
  finalDiag oldArr walkFuel x y edits

/-- Bounded lookahead scan of `simpleDiff` (`for (let i = 1; i < lookAhead; i++)`). -/
inductive LookRes
  | fNew (j : Nat)
  | fOld (j : Nat)
  | nothing
deriving DecidableEq, Repr

def lookScan (oldArr newArr : List Str) (oldIdx newIdx : Nat) :
    Nat → Nat → LookRes
  | 0, _ => .nothing
  | fuel + 1, i =>
    if newIdx + i < newArr.length && (oldArr[oldIdx]? == newArr[newIdx + i]?) then
      .fNew (newIdx + i)
    else if oldIdx + i < oldArr.length && (oldArr[oldIdx + i]? == newArr[newIdx]?) then
      .fOld (oldIdx + i)
    else
      lookScan oldArr newArr oldIdx newIdx fuel (i + 1)

/-- Main loop of `simpleDiff`.  `fuel` bounds iterations; every iteration
advances `oldIdx` or `newIdx`, so `oldArr.length + newArr.length + 1`
suffices. -/
def simpleDiffAux (oldArr newArr : List Str) : Nat → Nat → Nat → List Edit
  | 0, _, _ => []
  | fuel + 1, oldIdx, newIdx =>
    if oldIdx < oldArr.length && newIdx < newArr.length then
      if oldArr[oldIdx]? == newArr[newIdx]? then
        ⟨.equal, oldIdx, newIdx, jsArrGet oldArr oldIdx⟩ ::
          simpleDiffAux oldArr newArr fuel (oldIdx + 1) (newIdx + 1)
      else
        let lookAhead := min 100 (max (oldArr.length - oldIdx) (newArr.length - newIdx))
        match lookScan oldArr newArr oldIdx newIdx lookAhead 1 with
        | .fNew j =>
          ((List.range' newIdx (j - newIdx)).map fun n =>
            (⟨.insert, oldIdx, n, jsArrGet newArr n⟩ : Edit))
            ++ simpleDiffAux oldArr newArr fuel oldIdx j
        | .fOld j =>
          ((List.range' oldIdx (j - oldIdx)).map fun n =>
            (⟨.delete, n, newIdx, jsArrGet oldArr n⟩ : Edit))
            ++ simpleDiffAux oldArr newArr fuel j newIdx
        | .nothing =>
          ⟨.delete, oldIdx, newIdx, jsArrGet oldArr oldIdx⟩ ::
          ⟨.insert, oldIdx + 1, newIdx, jsArrGet newArr newIdx⟩ ::
            simpleDiffAux oldArr newArr fuel (oldIdx + 1) (newIdx + 1)
    else
      ((List.range' oldIdx (oldArr.length - oldIdx)).map fun n =>
        (⟨.delete, n, newIdx, jsArrGet oldArr n⟩ : Edit))
        ++ ((List.range' newIdx (newArr.length - newIdx)).map fun n =>
          (⟨.insert, oldArr.length, n, jsArrGet newArr n⟩ : Edit))

/-- `simpleDiff(oldArr, newArr)` — the bounded-lookahead fallback of part_001. -/
def simpleDiff (oldArr newArr : List Str) : List Edit :=
  simpleDiffAux oldArr newArr (oldArr.length + newArr.length + 1) 0 0

/-- The `for (let k = -d; k <= d; k += 2)` inner loop of `myersDiff`; returns
the edit script when `(N, M)` is reached, otherwise the updated frontier. -/
def innerK (oldArr newArr : List Str) (N M offset : Int)
    (trace : List (Array Int)) (snakeFuel : Nat) (d : Int) :
    Nat → Int → Array Int → Sum (List Edit) (Array Int)
  | 0, _, v => .inr v
  | fuel + 1, k, v =>
    if k > d then .inr v
    else
      let idx := k + offset
      let x :=
        if k == -d || (k != d && jlt (jsVGet v (idx - 1)) (jsVGet v (idx + 1)))
        then readV v (idx + 1)
        else readV v (idx - 1) + 1
      let y := x - k
      let (x', y') := snake oldArr newArr N M snakeFuel x y
      let v' := vSet v idx x'
      if x' ≥ N && y' ≥ M then
        .inl (backtrack trace oldArr newArr offset)
      else
        innerK oldArr newArr N M offset trace snakeFuel d fuel (k + 2) v'

/-- The `for (let d = 0; d <= MAX; d++)` outer loop of `myersDiff`.  The
snapshot of `v` is pushed onto `trace` before the inner loop runs, exactly as
in the source.  Fuel is `MAX + 1`, so fuel exhaustion coincides with the
source's fall-through `return simpleDiff(oldArr, newArr)` after `d > MAX`. -/
def outerD (oldArr newArr : List Str) (N M offset : Int) (snakeFuel : Nat) :
    Nat → Int → Array Int → List (Array Int) → List Edit
  | 0, _, _, _ => simpleDiff oldArr newArr
  | fuel + 1, d, v, trace =>
    let trace' := trace ++ [v]
    match innerK oldArr newArr N M offset trace' snakeFuel d (d.toNat + 1) (-d) v with
    | .inl edits => edits
    | .inr v' => outerD oldArr newArr N M offset snakeFuel fuel (d + 1) v' trace'

/-- `myersDiff(oldArr, newArr)` of part_001. -/
def myersDiff (oldArr newArr : List Str) : List Edit :=
  let N := oldArr.length
  let M := newArr.length
  let MAX := N + M
  if MAX = 0 then []
  else if N = 0 then
    newArr.mapIdx fun i v => ⟨.insert, 0, (i : Int), some v⟩
  else if M = 0 then
    oldArr.mapIdx fun i v => ⟨.delete, (i : Int), 0, some v⟩
  else if MAX > 20000 then simpleDiff oldArr newArr
  else
    let vSize := 2 * MAX + 1
    let v := (Array.mkArray vSize (-1 : Int)).setD (MAX + 1) 0
    outerD oldArr newArr (N : Int) (M : Int) (MAX : Int) (MAX + MAX + 1)
      (MAX + 1) 0 v []

end DiffV1

-- ── Word-level diff and chunk building (shared shapes) ───────────

/-- `dropWhile` never lengthens a list (termination helper). -/
theorem lenDropWhileLe (p : α → Bool) (l : List α) : (l.dropWhile p).length ≤ l.length :=
  (List.dropWhile_suffix p).sublist.length_le

/-- Word-diff pairing pass (`addWordDiffs` — identical in part_001 and
`diff.ts` up to which word differ `wd` it calls): pairs the `j`-th line of a
maximal removed run with the `j`-th line of the immediately following added
run, attaching the word segments returned by `wd`. -/
def pairRuns (wd : Option Str → Option Str → List WordSegment × List WordSegment) :
    List DiffLine → List DiffLine → List DiffLine × List DiffLine
  | r :: rs, a :: bs =>
    let (o, n) := wd r.content a.content
    let (rs', bs') := pairRuns wd rs bs
    ({ r with wordSegments := some o } :: rs', { a with wordSegments := some n } :: bs')
  | rs, [] => (rs, [])
  | [], bs => ([], bs)

def addWordDiffsWith
    (wd : Option Str → Option Str → List WordSegment × List WordSegment) :
    List DiffLine → List DiffLine
  | [] => []
  | l :: rest =>
    if l.type = .removed then
      let remRun := (l :: rest).takeWhile (fun x => x.type == .removed)
      let afterRem := (l :: rest).dropWhile (fun x => x.type == .removed)
      let addRun := afterRem.takeWhile (fun x => x.type == .added)
      let afterAdd := afterRem.dropWhile (fun x => x.type == .added)
      let (remRun', addRun') := pairRuns wd remRun addRun
      remRun' ++ addRun' ++ addWordDiffsWith wd afterAdd
    else l :: addWordDiffsWith wd rest
termination_by ls => ls.length
decreasing_by
  all_goals simp only [List.dropWhile_cons, List.length_cons]
  · split
    · calc (List.dropWhile (fun x => x.type == DiffLineType.added)
              (List.dropWhile (fun x => x.type == DiffLineType.removed) rest)).length
          ≤ (List.dropWhile (fun x => x.type == DiffLineType.removed) rest).length :=
            lenDropWhileLe _ _
        _ ≤ rest.length := lenDropWhileLe _ _
        _ < rest.length + 1 := Nat.lt_succ_self _
    · simp_all
  · omega

/-- The grouping loop of `groupIntoChunks`: maximal runs of `inChunk`-flagged
lines become the chunk line groups. -/
def groupRuns : List (DiffLine × Bool) → List (List DiffLine)
  | [] => []
  | (l, b) :: rest =>
    if b then
      (l :: (rest.takeWhile (·.2)).map (·.1)) :: groupRuns (rest.dropWhile (·.2))
    else groupRuns rest
termination_by ls => ls.length
decreasing_by
  · exact Nat.lt_succ_of_le (lenDropWhileLe _ _)
  · simp

/-- `groupIntoChunks(lines)` — identical in part_001 and `diff.ts`
(`CONTEXT = 3`): a line index is in a chunk iff some changed line lies within
distance 3; contiguous flagged runs become chunks. -/
def groupIntoChunks (lines : List DiffLine) : List (List DiffLine) :=
  if lines.isEmpty then []
  else
    let len := lines.length
    let changed : Nat → Bool := fun i =>
      match lines[i]? with
      | some l => l.type != .unchanged
      | none => false
    let inChunk : Nat → Bool := fun j =>
      (List.range len).any fun i => changed i && decide (i ≤ j + 3) && decide (j ≤ i + 3)
    let flags := (List.range len).map inChunk
    if !flags.any id then [lines]
    else
      let cs := groupRuns (lines.zip flags)
      if cs.isEmpty then [lines] else cs

def getFirstOldLine (lines : List DiffLine) : Int :=
  match lines.find? (fun l => l.oldLineNumber.isSome) with
  | some l => l.oldLineNumber.getD 1
  | none => 1

def getFirstNewLine (lines : List DiffLine) : Int :=
  match lines.find? (fun l => l.newLineNumber.isSome) with
  | some l => l.newLineNumber.getD 1
  | none => 1

namespace DiffV1

/-- The word/space/punctuation mode of the part_001 tokenizer. -/
inductive TokMode
  | word
  | space
  | punct
deriving DecidableEq, Repr

def tokenizeGo : Str → TokMode → Str → List Str
  | [], _, current => if current.isEmpty then [] else [current]
  | ch :: rest, mode, current =>
    let isSp := ch.isWhitespace
    let isPu := !isWordChar ch && !ch.isWhitespace
    let newMode : TokMode := if isSp then .space else if isPu then .punct else .word
    if newMode != mode && !current.isEmpty then
      current :: tokenizeGo rest newMode [ch]
    else
      tokenizeGo rest newMode (current ++ [ch])

/-- `tokenize(line)` of part_001.  A JavaScript call with `undefined` would
throw (`for..of` over `undefined`); the model returns no tokens in that case
(the claims never depend on that branch's value). -/
def tokenize : Option Str → List Str
  | none => []
  | some cs => tokenizeGo cs .word []

/-- `computeWordDiff(oldLine, newLine)` of part_001; first component is
`oldSegments`, second is `newSegments`. -/
def computeWordDiff (oldLine newLine : Option Str) :
    List WordSegment × List WordSegment :=
  let edits := myersDiff (tokenize oldLine) (tokenize newLine)
  edits.foldl
    (fun (acc : List WordSegment × List WordSegment) e =>
      match e.type with
      | .equal => (acc.1 ++ [⟨e.value, .unchanged⟩], acc.2 ++ [⟨e.value, .unchanged⟩])
      | .delete => (acc.1 ++ [⟨e.value, .removed⟩], acc.2)
      | .insert => (acc.1, acc.2 ++ [⟨e.value, .added⟩]))
    ([], [])

def addWordDiffs : List DiffLine → List DiffLine :=
  addWordDiffsWith computeWordDiff

/-- Expansion of the edit script into `DiffLine`s with running counters
(the `for (const edit of edits)` loop of part_001's `computeDiff`). -/
def linesFromEdits : List Edit → Int → Int → List DiffLine
  | [], _, _ => []
  | e :: es, oldNum, newNum =>
    match e.type with
    | .equal =>
      ⟨.unchanged, e.value, some oldNum, some newNum, none⟩ ::
        linesFromEdits es (oldNum + 1) (newNum + 1)
    | .delete =>
      ⟨.removed, e.value, some oldNum, none, none⟩ :: linesFromEdits es (oldNum + 1) newNum
    | .insert =>
      ⟨.added, e.value, none, some newNum, none⟩ :: linesFromEdits es oldNum (newNum + 1)

/-- `computeDiff(oldText, newText, fileName)` of part_001; the two text
arguments are given already split on `'\n'`. -/
def computeDiff (oldLines newLines : List Str) (fileName : Option Str) : FileDiff :=
  let edits := myersDiff oldLines newLines
  let lines := addWordDiffs (linesFromEdits edits 1 1)
  let chunkLines := groupIntoChunks lines
  let chunks := chunkLines.mapIdx fun i cl =>
    { oldStart := match cl.head? with
        | some f => f.oldLineNumber.getD (getFirstOldLine cl)
        | none => getFirstOldLine cl
      oldLength := (cl.countP (fun l => l.type != .added) : Int)
      newStart := match cl.head? with
        | some f => f.newLineNumber.getD (getFirstNewLine cl)
        | none => getFirstNewLine cl
      newLength := (cl.countP (fun l => l.type != .removed) : Int)
      lines := cl
      id := str "chunk-" ++ (toString i).data : DiffChunk }
  let additions : Int := lines.countP (fun l => l.type == .added)
  let deletions : Int := lines.countP (fun l => l.type == .removed)
  let path := match fileName with
    | some p => if p.isEmpty then str "file" else p
    | none => str "file"
  { oldPath := path
    newPath := path
    chunks := chunks
    type := if additions > 0 && deletions > 0 then .modified
      else if additions > 0 then .added else .deleted
    additions := additions
    deletions := deletions }

end DiffV1

-- ── Spec-side definitions used to state the claims ───────────────

/-- Replay of an edit script against the old sequence, as the specification
describes it: a `delete` consumes one element of `A`, an `equal` consumes one
element of `A` and keeps it, an `insert` contributes the edit's value.  The
replay fails (`none`) if the script consumes past the end of `A`, leaves part
of `A` unconsumed, or inserts an `undefined` value. -/
def replayEdits : List Edit → List Str → Option (List Str)
  | [], [] => some []
  | [], _ :: _ => none
  | e :: es, a =>
    match e.type with
    | .delete =>
      match a with
      | _ :: rest => replayEdits es rest
      | [] => none
    | .equal =>
      match a with
      | x :: rest => (replayEdits es rest).map (x :: ·)
      | [] => none
    | .insert =>
      match e.value with
      | some v => (replayEdits es a).map (v :: ·)
      | none => none

/-- Concatenation of the text of a list of word segments; `none` if any
segment's text is `undefined`. -/
def segmentsText (segs : List WordSegment) : Option Str :=
  segs.foldr
    (fun s acc =>
      match s.text, acc with
      | some t, some r => some (t ++ r)
      | _, _ => none)
    (some [])

-- ── DiffV1: unified diff parser (part_001) ───────────────────────

/-- Input lines of a diff text (the result of `diffText.split('\n')`). -/
abbrev Lines := List Str

/-- `parseSimpleDiff`'s line-building loop — identical in part_001 and
`diff.ts`. -/
def parseSimpleDiffCore : Lines → Int → Int → List DiffLine × Nat × Nat
  | [], _, _ => ([], 0, 0)
  | l :: rest, oldLine, newLine =>
    if startsWithL l (str "+") then
      let (ds, a, r) := parseSimpleDiffCore rest oldLine (newLine + 1)
      (⟨.added, some (l.drop 1), none, some newLine, none⟩ :: ds, a + 1, r)
    else if startsWithL l (str "-") then
      let (ds, a, r) := parseSimpleDiffCore rest (oldLine + 1) newLine
      (⟨.removed, some (l.drop 1), some oldLine, none, none⟩ :: ds, a, r + 1)
    else
      let (ds, a, r) := parseSimpleDiffCore rest (oldLine + 1) (newLine + 1)
      (⟨.unchanged, some l, some oldLine, some newLine, none⟩ :: ds, a, r)

/-- `parseSimpleDiff(lines)` — identical in part_001 and `diff.ts` up to the
word differ used by its `addWordDiffs` call. -/
def parseSimpleDiffWith
    (wd : Option Str → Option Str → List WordSegment × List WordSegment)
    (ls : Lines) : Option FileDiff :=
  let (chunkLines0, tA, tR) := parseSimpleDiffCore ls 1 1
  if tA == 0 && tR == 0 then none
  else
    let chunkLines := addWordDiffsWith wd chunkLines0
    some
      { oldPath := str "file"
        newPath := str "file"
        chunks := [{ oldStart := 1
                     oldLength := (chunkLines.countP (fun l => l.type != .added) : Int)
                     newStart := 1
                     newLength := (chunkLines.countP (fun l => l.type != .removed) : Int)
                     lines := chunkLines
                     id := str "chunk-0" }]
        type := .modified
        additions := tA
        deletions := tR }

/-- `diffText.trim().length > 0`, expressed over the split lines: the trimmed
text is nonempty iff some line has a non-whitespace character. -/
def hasNonWs (ls : Lines) : Bool :=
  ls.any fun l => l.any fun c => !c.isWhitespace

/-- `diffLines.some(l => l.startsWith('+') || l.startsWith('-'))`. -/
def hasMarkers (ls : Lines) : Bool :=
  ls.any fun l => startsWithL l (str "+") || startsWithL l (str "-")

namespace DiffV1

/-- Match of `/@@ -(\d+)(?:,(\d+))? \+(\d+)(?:,(\d+))? @@/` at the head of
the input (one candidate position of the unanchored search). -/
def parseHunkAt (s : Str) : Option (Int × Option Int × Int × Option Int) :=
  if startsWithL s (str "@@ -") then
    let r0 := s.drop 4
    let (d1, r1) := digitRun r0
    if d1.isEmpty then none
    else
      let (o2, r2) :=
        match r1 with
        | ',' :: r2 =>
          let (d2, r3) := digitRun r2
          if d2.isEmpty then (none, ',' :: r2) else (some (digitsToInt d2), r3)
        | _ => (none, r1)
      if startsWithL r2 (str " +") then
        let r3 := r2.drop 2
        let (d3, r4) := digitRun r3
        if d3.isEmpty then none
        else
          let (n2, r5) :=
            match r4 with
            | ',' :: r6 =>
              let (d4, r7) := digitRun r6
              if d4.isEmpty then (none, ',' :: r6) else (some (digitsToInt d4), r7)
            | _ => (none, r4)
          if startsWithL r5 (str " @@") then some (digitsToInt d1, o2, digitsToInt d3, n2)
          else none
      else none
  else none

/-- `line.match(/@@ -(\d+)(?:,(\d+))? \+(\d+)(?:,(\d+))? @@/)`: leftmost
unanchored match. -/
def hunkHeaderMatch : Str → Option (Int × Option Int × Int × Option Int)
  | [] => none
  | s@(_ :: rest) =>
    match parseHunkAt s with
    | some r => some r
    | none => hunkHeaderMatch rest

/-- Result of the hunk body loop: the produced lines, how many were
added/removed, and the unconsumed input. -/
structure BodyRes where
  lines : List DiffLine
  added : Nat
  removed : Nat
  rest : Lines
deriving DecidableEq, Repr

/-- The inner `while` of `parseHunks` that consumes one hunk's body lines. -/
def parseHunkBody : Lines → Int → Int → BodyRes
  | [], _, _ => ⟨[], 0, 0, []⟩
  | l :: rest, oldLine, newLine =>
    if startsWithL l (str "@@") || startsWithL l (str "diff --git") then
      ⟨[], 0, 0, l :: rest⟩
    else if startsWithL l (str "+") then
      let r := parseHunkBody rest oldLine (newLine + 1)
      ⟨⟨.added, some (l.drop 1), none, some newLine, none⟩ :: r.lines,
        r.added + 1, r.removed, r.rest⟩
    else if startsWithL l (str "-") then
      let r := parseHunkBody rest (oldLine + 1) newLine
      ⟨⟨.removed, some (l.drop 1), some oldLine, none, none⟩ :: r.lines,
        r.added, r.removed + 1, r.rest⟩
    else if startsWithL l (str " ") || l.isEmpty then
      let content := if startsWithL l (str " ") then l.drop 1 else l
      let r := parseHunkBody rest (oldLine + 1) (newLine + 1)
      ⟨⟨.unchanged, some content, some oldLine, some newLine, none⟩ :: r.lines,
        r.added, r.removed, r.rest⟩
    else if startsWithL l (str "\\") then
      parseHunkBody rest oldLine newLine
    else ⟨[], 0, 0, l :: rest⟩

theorem parseHunkBody_rest_le (ls : Lines) :
    ∀ o n, (parseHunkBody ls o n).rest.length ≤ ls.length := by
  induction ls with
  | nil => intro o n; simp [parseHunkBody]
  | cons l rest ih =>
    intro o n
    simp only [parseHunkBody]
    split
    · simp
    · split
      · exact Nat.le_succ_of_le (ih _ _)
      · split
        · exact Nat.le_succ_of_le (ih _ _)
        · split
          · exact Nat.le_succ_of_le (ih _ _)
          · split
            · exact Nat.le_succ_of_le (ih _ _)
            · simp

theorem parseHunkBody_rest_lt (l : Str) (rest : Lines) (o n : Int) :
    (parseHunkBody (l :: rest) o n).rest.length ≤ rest.length + 1 := by
  simpa using parseHunkBody_rest_le (l :: rest) o n

/-- The `for (let k ...)` accumulator state of `parseHunks`. -/
def parseHunksAux (oldPath newPath : Str) :
    Lines → List DiffChunk → Nat → Nat → Nat → List DiffChunk × Nat × Nat × Lines
  | [], chunks, tA, tR, _ => (chunks, tA, tR, [])
  | l :: rest, chunks, tA, tR, chunkIdx =>
    if startsWithL l (str "diff --git") then (chunks, tA, tR, l :: rest)
    else if startsWithL l (str "@@") then
      match hunkHeaderMatch l with
      | none => parseHunksAux oldPath newPath rest chunks tA tR chunkIdx
      | some (oldStart, oldLenOpt, newStart, newLenOpt) =>
        let b := parseHunkBody rest oldStart newStart
        if b.lines.isEmpty then
          parseHunksAux oldPath newPath b.rest chunks (tA + b.added) (tR + b.removed) chunkIdx
        else
          parseHunksAux oldPath newPath b.rest
            (chunks ++ [{ oldStart := oldStart
                          oldLength := oldLenOpt.getD 1
                          newStart := newStart
                          newLength := newLenOpt.getD 1
                          lines := addWordDiffs b.lines
                          id := oldPath ++ str "-chunk-" ++ (toString chunkIdx).data }])
            (tA + b.added) (tR + b.removed) (chunkIdx + 1)
    else parseHunksAux oldPath newPath rest chunks tA tR chunkIdx
termination_by ls _ _ _ _ => ls.length
decreasing_by
  · simp
  · exact Nat.lt_succ_of_le (parseHunkBody_rest_le rest _ _)
  · exact Nat.lt_succ_of_le (parseHunkBody_rest_le rest _ _)
  · simp

/-- `parseHunks(lines, start, oldPath, newPath)` of part_001, with the input
given as the suffix of the line list starting at `start`. -/
def parseHunks (ls : Lines) (oldPath newPath : Str) : Option (FileDiff × Lines) :=
  let (chunks, tA, tR, rest) := parseHunksAux oldPath newPath ls [] 0 0 0
  if chunks.isEmpty then none
  else
    some
      ({ oldPath := oldPath
         newPath := newPath
         chunks := chunks
         type := if tA > 0 && tR > 0 then .modified else if tA > 0 then .added else .deleted
         additions := tA
         deletions := tR }, rest)

/-- The header-skipping `while` inside the `diff --git` branch of
`parseOneFile` (all its inner branches just advance the index). -/
def skipHeaderLines : Lines → Lines
  | [] => []
  | l :: rest =>
    if startsWithL l (str "---") || startsWithL l (str "@@") ||
        startsWithL l (str "diff --git") then
      l :: rest
    else skipHeaderLines rest

theorem skipHeaderLines_le (ls : Lines) : (skipHeaderLines ls).length ≤ ls.length := by
  induction ls with
  | nil => simp [skipHeaderLines]
  | cons l rest ih =>
    simp only [skipHeaderLines]
    split
    · simp
    · exact Nat.le_succ_of_le ih

/-- The lazy group split of `/diff --git a\/(.+?) b\/(.+)/`: the shortest
nonempty prefix followed by `" b/"` and a nonempty remainder. -/
def splitLazyB (acc : Str) : Str → Option (Str × Str)
  | [] => none
  | c :: rest =>
    if startsWithL rest (str " b/") && !(rest.drop 3).isEmpty then
      some (acc ++ [c], rest.drop 3)
    else splitLazyB (acc ++ [c]) rest

/-- Leftmost unanchored match of `/diff --git a\/(.+?) b\/(.+)/`. -/
def gitHeaderSearch : Str → Option (Str × Str)
  | [] => none
  | s@(_ :: rest) =>
    if startsWithL s (str "diff --git a/") then
      match splitLazyB [] (s.drop 13) with
      | some r => some r
      | none => gitHeaderSearch rest
    else gitHeaderSearch rest

/-- Match of `/^--- (?:a\/)?(.+)/` (greedy optional `a/` group). -/
def dashMatch (s : Str) : Option Str :=
  if startsWithL s (str "--- ") then
    let r := s.drop 4
    if startsWithL r (str "a/") && !(r.drop 2).isEmpty then some (r.drop 2)
    else if !r.isEmpty then some r
    else none
  else none

/-- Match of `/^\+\+\+ (?:b\/)?(.+)/`. -/
def plusMatch (s : Str) : Option Str :=
  if startsWithL s (str "+++ ") then
    let r := s.drop 4
    if startsWithL r (str "b/") && !(r.drop 2).isEmpty then some (r.drop 2)
    else if !r.isEmpty then some r
    else none
  else none

/-- The `diff --git` header step of `parseOneFile`: extract the two paths
from the header line and skip the metadata lines that follow. -/
def parseGitHeaderStep : Lines → Str × Str × Lines
  | [] => ([], [], [])
  | l :: rest =>
    if startsWithL l (str "diff --git") then
      match gitHeaderSearch l with
      | some (o, n) => (o, n, skipHeaderLines rest)
      | none => ([], [], skipHeaderLines rest)
    else ([], [], l :: rest)

/-- The `--- ` line step of `parseOneFile`. -/
def consumeDash (oldPath0 : Str) : Lines → Str × Lines
  | [] => (oldPath0, [])
  | l :: rest =>
    if startsWithL l (str "---") then
      (match dashMatch l with
       | some p =>
         if p ≠ str "/dev/null" then (if oldPath0.isEmpty then p else oldPath0)
         else oldPath0
       | none => oldPath0, rest)
    else (oldPath0, l :: rest)

/-- The `+++ ` line step of `parseOneFile`. -/
def consumePlus (newPath0 : Str) : Lines → Str × Lines
  | [] => (newPath0, [])
  | l :: rest =>
    if startsWithL l (str "+++") then
      (match plusMatch l with
       | some p =>
         if p ≠ str "/dev/null" then (if newPath0.isEmpty then p else newPath0)
         else newPath0
       | none => newPath0, rest)
    else (newPath0, l :: rest)

/-- `parseOneFile(lines, start)` of part_001 on the suffix starting at
`start`. -/
def parseOneFile (ls : Lines) : Option (FileDiff × Lines) :=
  let s1 := parseGitHeaderStep ls
  let s2 := consumeDash s1.1 s1.2.2
  let s3 := consumePlus s1.2.1 s2.2
  parseHunks s3.2 (if s2.1.isEmpty then str "file" else s2.1)
    (if s3.1.isEmpty then str "file" else s3.1)

theorem parseHunksAux_rest_le (oldPath newPath : Str) (ls : Lines)
    (chunks : List DiffChunk) (tA tR chunkIdx : Nat) :
    (parseHunksAux oldPath newPath ls chunks tA tR chunkIdx).2.2.2.length ≤ ls.length := by
  induction ls, chunks, tA, tR, chunkIdx using parseHunksAux.induct oldPath newPath with
  | case1 chunks tA tR x => simp [parseHunksAux]
  | case2 l rest chunks tA tR chunkIdx h => simp [parseHunksAux, h]
  | case3 l rest chunks tA tR chunkIdx h1 h2 h3 ih =>
    simp only [parseHunksAux, if_neg h1, if_pos h2, h3]
    exact Nat.le_succ_of_le ih
  | case4 l rest chunks tA tR chunkIdx h1 h2 oldStart oldLenOpt newStart newLenOpt h3 b hb ih =>
    simp only [parseHunksAux, if_neg h1, if_pos h2, h3]
    simp only [b] at hb ih ⊢
    rw [if_pos hb]
    exact Nat.le_succ_of_le (le_trans ih (parseHunkBody_rest_le rest _ _))
  | case5 l rest chunks tA tR chunkIdx h1 h2 oldStart oldLenOpt newStart newLenOpt h3 b hb ih =>
    simp only [parseHunksAux, if_neg h1, if_pos h2, h3]
    simp only [b] at hb ih ⊢
    rw [if_neg hb]
    exact Nat.le_succ_of_le (le_trans ih (parseHunkBody_rest_le rest _ _))
  | case6 l rest chunks tA tR chunkIdx h1 h2 ih =>
    simp only [parseHunksAux, if_neg h1, if_neg h2]
    exact Nat.le_succ_of_le ih

theorem parseHunks_rest_le (ls : Lines) (oldPath newPath : Str) (f : FileDiff)
    (rem : Lines) (h : parseHunks ls oldPath newPath = some (f, rem)) :
    rem.length ≤ ls.length := by
  have hle := parseHunksAux_rest_le oldPath newPath ls [] 0 0 0
  unfold parseHunks at h
  rcases hq : parseHunksAux oldPath newPath ls [] 0 0 0 with ⟨chunks, tA, tR, rest⟩
  rw [hq] at h hle
  by_cases hc : chunks.isEmpty
  · simp [hc] at h
  · simp only [hc, Bool.false_eq_true, if_false, Option.some.injEq, Prod.mk.injEq] at h
    exact h.2 ▸ hle

theorem consumeDash_le (p : Str) (ls : Lines) :
    (consumeDash p ls).2.length ≤ ls.length := by
  cases ls with
  | nil => simp [consumeDash]
  | cons l rest =>
    simp only [consumeDash]
    split <;> simp

theorem consumePlus_le (p : Str) (ls : Lines) :
    (consumePlus p ls).2.length ≤ ls.length := by
  cases ls with
  | nil => simp [consumePlus]
  | cons l rest =>
    simp only [consumePlus]
    split <;> simp

theorem parseOneFile_rest_le (l : Str) (rest : Lines) (f : FileDiff) (rem : Lines)
    (h : parseOneFile (l :: rest) = some (f, rem))
    (hl : startsWithL l (str "diff --git") = true ∨ startsWithL l (str "---") = true) :
    rem.length ≤ rest.length := by
  have h4 := parseHunks_rest_le _ _ _ _ _
    (show parseHunks (consumePlus (parseGitHeaderStep (l :: rest)).2.1
        (consumeDash (parseGitHeaderStep (l :: rest)).1 (parseGitHeaderStep (l :: rest)).2.2).2).2
        (if (consumeDash (parseGitHeaderStep (l :: rest)).1
              (parseGitHeaderStep (l :: rest)).2.2).1.isEmpty then str "file"
         else (consumeDash (parseGitHeaderStep (l :: rest)).1
            (parseGitHeaderStep (l :: rest)).2.2).1)
        (if (consumePlus (parseGitHeaderStep (l :: rest)).2.1
              (consumeDash (parseGitHeaderStep (l :: rest)).1
                (parseGitHeaderStep (l :: rest)).2.2).2).1.isEmpty then str "file"
         else (consumePlus (parseGitHeaderStep (l :: rest)).2.1
            (consumeDash (parseGitHeaderStep (l :: rest)).1
              (parseGitHeaderStep (l :: rest)).2.2).2).1) = some (f, rem) from h)
  have h3 := consumePlus_le (parseGitHeaderStep (l :: rest)).2.1
    (consumeDash (parseGitHeaderStep (l :: rest)).1 (parseGitHeaderStep (l :: rest)).2.2).2
  have h2 := consumeDash_le (parseGitHeaderStep (l :: rest)).1
    (parseGitHeaderStep (l :: rest)).2.2
  by_cases hgit : startsWithL l (str "diff --git")
  · have hstep : (parseGitHeaderStep (l :: rest)).2.2.length ≤ rest.length := by
      simp only [parseGitHeaderStep, if_pos hgit]
      match gitHeaderSearch l with
      | some (o, n) => simpa using skipHeaderLines_le rest
      | none => simpa using skipHeaderLines_le rest
    omega
  · have hd : startsWithL l (str "---") = true := hl.resolve_left hgit
    have e1 : (parseGitHeaderStep (l :: rest)).2.2 = l :: rest := by
      simp [parseGitHeaderStep, hgit]
    have e1a : (parseGitHeaderStep (l :: rest)).1 = [] := by
      simp [parseGitHeaderStep, hgit]
    have e2 : (consumeDash (parseGitHeaderStep (l :: rest)).1
        (parseGitHeaderStep (l :: rest)).2.2).2 = rest := by
      rw [e1, e1a]
      simp only [consumeDash, if_pos hd]
    rw [e2] at h3 h4
    omega

theorem at_not_git (l : Str) (h : startsWithL l (str "@@") = true) :
    startsWithL l (str "diff --git") = false := by
  match l with
  | [] => simp [startsWithL, str] at h
  | c :: cs =>
    simp only [str, startsWithL] at h ⊢
    have hc : c = '@' := by
      cases hcc : c == '@' with
      | false => rw [hcc] at h; simp at h
      | true => exact eq_of_beq hcc
    subst hc
    simp [show (('@' : Char) == 'd') = false by decide]

theorem parseHunks_head_at_rest_le (l : Str) (rest : Lines) (oldPath newPath : Str)
    (f : FileDiff) (rem : Lines)
    (h : parseHunks (l :: rest) oldPath newPath = some (f, rem))
    (hat : startsWithL l (str "@@") = true) : rem.length ≤ rest.length := by
  have hgit := at_not_git l hat
  have hle : (parseHunksAux oldPath newPath (l :: rest) [] 0 0 0).2.2.2.length
      ≤ rest.length := by
    simp only [parseHunksAux, hgit, Bool.false_eq_true, if_false, if_pos hat]
    match hunkHeaderMatch l with
    | none => exact parseHunksAux_rest_le _ _ _ _ _ _ _
    | some (oldStart, oldLenOpt, newStart, newLenOpt) =>
      by_cases hb : (parseHunkBody rest oldStart newStart).lines.isEmpty
      · simp only [hb, if_true]
        exact le_trans (parseHunksAux_rest_le _ _ _ _ _ _ _) (parseHunkBody_rest_le _ _ _)
      · simp only [hb, Bool.false_eq_true, if_false]
        exact le_trans (parseHunksAux_rest_le _ _ _ _ _ _ _) (parseHunkBody_rest_le _ _ _)
  unfold parseHunks at h
  rcases hq : parseHunksAux oldPath newPath (l :: rest) [] 0 0 0 with ⟨chunks, tA, tR, rest'⟩
  rw [hq] at h hle
  by_cases hc : chunks.isEmpty
  · simp [hc] at h
  · simp only [hc, Bool.false_eq_true, if_false, Option.some.injEq, Prod.mk.injEq] at h
    exact h.2 ▸ hle

/-- The main `while (i < diffLines.length)` loop of part_001's
`parseUnifiedDiff`. -/
def parseUnifiedDiffAux : Lines → List FileDiff → List FileDiff
  | [], files => files
  | l :: rest, files =>
    if startsWithL l (str "diff --git") || startsWithL l (str "---") then
      match hp : parseOneFile (l :: rest) with
      | some (f, rem) => parseUnifiedDiffAux rem (files ++ [f])
      | none => parseUnifiedDiffAux rest files
    else if startsWithL l (str "@@") then
      match hp : parseHunks (l :: rest) (str "a") (str "b") with
      | some (f, rem) => parseUnifiedDiffAux rem (files ++ [f])
      | none => parseUnifiedDiffAux rest files
    else parseUnifiedDiffAux rest files
termination_by ls _ => ls.length
decreasing_by
  · rename_i hcond
    simp only [Bool.or_eq_true] at hcond
    exact Nat.lt_succ_of_le (parseOneFile_rest_le _ _ _ _ hp hcond)
  · simp
  · rename_i hcond1 hcond2
    exact Nat.lt_succ_of_le (parseHunks_head_at_rest_le _ _ _ _ _ _ hp hcond2)
  · simp
  · simp

/-- `parseUnifiedDiff(diffText)` of part_001, on the split lines. -/
def parseUnifiedDiff (ls : Lines) : List FileDiff :=
  let files := parseUnifiedDiffAux ls []
  if files.isEmpty && hasNonWs ls then
    if hasMarkers ls then
      match parseSimpleDiffWith computeWordDiff ls with
      | some f => [f]
      | none => []
    else []
  else files

/-- `parseSimpleDiff(lines)` of part_001. -/
def parseSimpleDiff : Lines → Option FileDiff :=
  parseSimpleDiffWith computeWordDiff

end DiffV1

-- ── Change regions and collapsible regions (identical in both engines) ──

/-- A half-open index interval `[start, stop)` of a chunk's line list
(`ChangeRegion` in the source; the source's `end` field is called `stop`
here because `end` is a Lean keyword). -/
structure ChangeRegion where
  start : Int
  stop : Int
deriving DecidableEq, Repr

/-- `findChangeRegions(lines)` — maximal runs of non-unchanged lines.  The
source scans with an index and an inner while loop; the translation is a
single structural pass that carries the current position `i` and the start
`st` of the change run currently being scanned (if any). -/
def fcrGo : List DiffLine → Nat → Option Nat → List ChangeRegion
  | [], _, none => []
  | [], i, some s => [⟨(s : Int), (i : Int)⟩]
  | l :: rest, i, none =>
    if l.type != .unchanged then fcrGo rest (i + 1) (some i)
    else fcrGo rest (i + 1) none
  | l :: rest, i, some s =>
    if l.type != .unchanged then fcrGo rest (i + 1) (some s)
    else ⟨(s : Int), (i : Int)⟩ :: fcrGo rest (i + 1) none

def findChangeRegions (lines : List DiffLine) : List ChangeRegion :=
  fcrGo lines 0 none

/-- `computeCollapsibleRegions(lines, changeRegions, contextLines)` —
identical in part_001 and `diff.ts` (`MIN_COLLAPSE = 4`). -/
def computeCollapsibleRegions (lines : List DiffLine)
    (changeRegions : List ChangeRegion) (contextLines : Int) : List ChangeRegion :=
  match changeRegions with
  | [] =>
    -- all unchanged: collapse if large enough
    if (lines.length : Int) > contextLines * 2 + 1 then
      [⟨contextLines, (lines.length : Int) - contextLines⟩]
    else []
  | first :: rest =>
    let lastReg := (first :: rest).getLast (by simp)
    let leading :=
      if first.start > contextLines + 4 then [⟨0, first.start - contextLines⟩] else []
    let mid := ((first :: rest).zip rest).filterMap fun p =>
      let gapStart := p.1.stop + contextLines
      let gapEnd := p.2.start - contextLines
      if gapEnd - gapStart ≥ 4 then some ⟨gapStart, gapEnd⟩ else none
    let trailing :=
      if (lines.length : Int) - lastReg.stop > contextLines + 4 then
        [⟨lastReg.stop + contextLines, (lines.length : Int)⟩]
      else []
    leading ++ mid ++ trailing

-- ── DiffTs: src/src/engine/diff.ts (the engine used by the app) ──

namespace DiffTs

/-- `value.split('\n')` of `splitChangeLines`. -/
def splitOnNl : Str → List Str
  | [] => [[]]
  | c :: rest =>
    if c == '\n' then [] :: splitOnNl rest
    else
      match splitOnNl rest with
      | [] => [[c]]
      | l :: ls => (c :: l) :: ls

/-- `splitChangeLines(value)` of diff.ts. -/
def splitChangeLines (value : Str) : List Str :=
  let lines := splitOnNl value
  if value.getLast? == some '\n' then lines.dropLast else lines

/-- `normalizePath(rawPath)` of diff.ts (`undefined` and the empty string are
both falsy in `if (!rawPath)`). -/
def normalizePath : Option Str → Str
  | none => str "file"
  | some p =>
    if p.isEmpty then str "file"
    else
      let withoutTabSuffix := p.takeWhile (fun c => c != '\t')
      if withoutTabSuffix = str "/dev/null" then str "/dev/null"
      else if startsWithL withoutTabSuffix (str "a/") || startsWithL withoutTabSuffix (str "b/")
      then withoutTabSuffix.drop 2
      else withoutTabSuffix

/-- A change object of the external `diff` npm package (`JsDiffChange`). -/
structure JsDiffChange where
  value : Str
  added : Bool := false
  removed : Bool := false
deriving DecidableEq, Repr

/-- A hunk as returned by the external `parsePatch` (`ParsedHunk`). -/
structure ParsedHunk where
  oldStart : Int
  oldLines : Int
  newStart : Int
  newLines : Int
  lines : List Str
deriving DecidableEq, Repr

/-- A file as returned by the external `parsePatch` (`ParsedFile`). -/
structure ParsedFile where
  oldFileName : Option Str := none
  newFileName : Option Str := none
  hunks : List ParsedHunk := []
deriving DecidableEq, Repr

/-- Whitespace/non-whitespace runs of a line (word tokens incl. spaces). -/
def wsTokenize : Str → List Str
  | [] => []
  | c :: rest =>
    match wsTokenize rest with
    | [] => [[c]]
    | (d :: t) :: ts =>
      if c.isWhitespace == d.isWhitespace then ((c :: d :: t) :: ts)
      else [c] :: (d :: t) :: ts
    | [] :: ts => [c] :: ts

/-- Modelled from the spec: `diffWordsWithSpace` of the external `diff` npm
package (not part of this repository).  Per spec §4.2, the line is split into
word/whitespace runs and the two token sequences are diffed into an ordered
change list whose replay reproduces the inputs.  The model aligns a common
token prefix and suffix and reports the middles as one removal plus one
addition; this satisfies the spec's §4.2/§8 reconstruction contract, and no
settled claim depends on the exact alignment the npm package would choose. -/
def diffWordsWithSpace (oldLine newLine : Str) : List JsDiffChange :=
  let oldToks := wsTokenize oldLine
  let newToks := wsTokenize newLine
  let pre := (oldToks.zip newToks).takeWhile (fun p => p.1 == p.2) |>.map (·.1)
  let oldRest := oldToks.drop pre.length
  let newRest := newToks.drop pre.length
  let suf := ((oldRest.reverse.zip newRest.reverse).takeWhile (fun p => p.1 == p.2)).map (·.1)
  let oldMid := oldRest.take (oldRest.length - suf.length)
  let newMid := newRest.take (newRest.length - suf.length)
  (if pre.isEmpty then [] else [⟨pre.flatten, false, false⟩])
    ++ (if oldMid.isEmpty then [] else [⟨oldMid.flatten, false, true⟩])
    ++ (if newMid.isEmpty then [] else [⟨newMid.flatten, true, false⟩])
    ++ (if suf.isEmpty then [] else [⟨suf.reverse.flatten, false, false⟩])

/-- `computeWordDiff(oldLine, newLine)` of diff.ts (the in-repo projection of
the external word differ's change list into segment lists). -/
def computeWordDiff (oldLine newLine : Option Str) :
    List WordSegment × List WordSegment :=
  (diffWordsWithSpace (oldLine.getD []) (newLine.getD [])).foldl
    (fun (acc : List WordSegment × List WordSegment) change =>
      if change.added then (acc.1, acc.2 ++ [⟨some change.value, .added⟩])
      else if change.removed then (acc.1 ++ [⟨some change.value, .removed⟩], acc.2)
      else
        (acc.1 ++ [⟨some change.value, .unchanged⟩], acc.2 ++ [⟨some change.value, .unchanged⟩]))
    ([], [])

def addWordDiffs : List DiffLine → List DiffLine :=
  addWordDiffsWith computeWordDiff

/-- The inner `for (const content of splitLines)` loop of diff.ts
`computeDiff`. -/
def linesOfChange (added removed : Bool) :
    List Str → Int → Int → List DiffLine × Int × Int
  | [], o, n => ([], o, n)
  | content :: rest, o, n =>
    if added then
      let (ds, o', n') := linesOfChange added removed rest o (n + 1)
      (⟨.added, some content, none, some n, none⟩ :: ds, o', n')
    else if removed then
      let (ds, o', n') := linesOfChange added removed rest (o + 1) n
      (⟨.removed, some content, some o, none, none⟩ :: ds, o', n')
    else
      let (ds, o', n') := linesOfChange added removed rest (o + 1) (n + 1)
      (⟨.unchanged, some content, some o, some n, none⟩ :: ds, o', n')

/-- The outer `for (const change of diffLines(...))` loop of diff.ts
`computeDiff`. -/
def linesFromChanges : List JsDiffChange → Int → Int → List DiffLine
  | [], _, _ => []
  | ch :: rest, oldNum, newNum =>
    let (ds, o', n') := linesOfChange ch.added ch.removed (splitChangeLines ch.value) oldNum newNum
    ds ++ linesFromChanges rest o' n'

/-- `computeDiff(oldText, newText, fileName)` of diff.ts, as a function of
the change list produced by the external `diffLines` (which is not part of
this repository and is therefore left universally quantified in theorems). -/
def computeDiff (changes : List JsDiffChange) (fileName : Option Str) : FileDiff :=
  let lines := addWordDiffs (linesFromChanges changes 1 1)
  let chunks := (groupIntoChunks lines).mapIdx fun i chunkLines =>
    { oldStart := match chunkLines.head? with
        | some f => f.oldLineNumber.getD (getFirstOldLine chunkLines)
        | none => getFirstOldLine chunkLines
      oldLength := (chunkLines.countP (fun l => l.type != .added) : Int)
      newStart := match chunkLines.head? with
        | some f => f.newLineNumber.getD (getFirstNewLine chunkLines)
        | none => getFirstNewLine chunkLines
      newLength := (chunkLines.countP (fun l => l.type != .removed) : Int)
      lines := chunkLines
      id := str "chunk-" ++ (toString i).data : DiffChunk }
  let additions : Int := lines.countP (fun l => l.type == .added)
  let deletions : Int := lines.countP (fun l => l.type == .removed)
  let path := match fileName with
    | some p => if p.isEmpty then str "file" else p
    | none => str "file"
  { oldPath := path
    newPath := path
    chunks := chunks
    -- the source's leftover ternary: both branches yield 'modified'
    type := if additions > 0 || deletions > 0 then .modified else .modified
    additions := additions
    deletions := deletions }

/-- A line shape that belongs to a hunk body per the spec's §4.4 grammar:
`+`, `-`, leading space, empty, or a `\ No newline` marker. -/
def isHunkBodyLine (l : Str) : Bool :=
  startsWithL l (str "+") || startsWithL l (str "-") || startsWithL l (str " ") ||
    startsWithL l (str "\\") || l.isEmpty

/-- Modelled from the spec: `parsePatch` of the external `diff` npm package
(not part of this repository).  Per spec §4.4/§6: the text is split into file
entries (a `diff --git` header or a `--- `/`+++ ` pair opens an entry), file
names are read from the `--- `/`+++ ` lines, hunks open with the grammar
`@@ -(\d+)(,(\d+))? \+(\d+)(,(\d+))? @@` (omitted length defaults to 1,
non-matching `@@` lines are skipped), and a hunk's body consists of the
following lines of body shape; other metadata lines are ignored. -/
def parsePatchGo : Lines → Option ParsedFile → List ParsedFile → List ParsedFile
  | [], cur, done => done ++ (match cur with | some f => [f] | none => [])
  | l :: rest, cur, done =>
    if startsWithL l (str "diff --git") then
      parsePatchGo rest (some {}) (done ++ (match cur with | some f => [f] | none => []))
    else if startsWithL l (str "--- ") then
      match cur with
      | some f =>
        if f.oldFileName.isSome || !f.hunks.isEmpty then
          parsePatchGo rest (some { oldFileName := some (l.drop 4) }) (done ++ [f])
        else parsePatchGo rest (some { f with oldFileName := some (l.drop 4) }) done
      | none => parsePatchGo rest (some { oldFileName := some (l.drop 4) }) done
    else if startsWithL l (str "+++ ") then
      match cur with
      | some f => parsePatchGo rest (some { f with newFileName := some (l.drop 4) }) done
      | none => parsePatchGo rest (some { newFileName := some (l.drop 4) }) done
    else if startsWithL l (str "@@") then
      match DiffV1.parseHunkAt l with
      | some (oldStart, oldLenOpt, newStart, newLenOpt) =>
        let body := rest.takeWhile isHunkBodyLine
        let rest' := rest.dropWhile isHunkBodyLine
        let hunk : ParsedHunk := ⟨oldStart, oldLenOpt.getD 1, newStart, newLenOpt.getD 1, body⟩
        match cur with
        | some f => parsePatchGo rest' (some { f with hunks := f.hunks ++ [hunk] }) done
        | none => parsePatchGo rest' (some { hunks := [hunk] }) done
      | none => parsePatchGo rest cur done
    else parsePatchGo rest cur done
termination_by ls _ _ => ls.length
decreasing_by
  all_goals first
    | exact Nat.lt_succ_of_le (lenDropWhileLe _ _)
    | simp

/-- The modelled `parsePatch(diffText)` on the split lines. -/
def parsePatch (ls : Lines) : List ParsedFile :=
  parsePatchGo ls none []

/-- Anchored match of `/^a\/(.+?) b\/(.+)$/` against a section header. -/
def abHeaderMatch (s : Str) : Option (Str × Str) :=
  if startsWithL s (str "a/") then DiffV1.splitLazyB [] (s.drop 2) else none

/-- The section splitter of `extractPathsFromHeaders`
(`diffText.split(/^diff --git /m).filter(Boolean)`), line-wise: each kept
section is the remainder of its `diff --git ` marker line followed by the
lines up to the next marker.  The behaviourally inert trailing empty string
that `split('\n')` would add to non-final sections is omitted. -/
def sectionsGo : Lines → List Lines
  | [] => []
  | marker :: tl =>
    let body := tl.takeWhile (fun l => !startsWithL l (str "diff --git "))
    let rest := tl.dropWhile (fun l => !startsWithL l (str "diff --git "))
    if (marker.drop 11).isEmpty && body.isEmpty && rest.isEmpty then []
    else (marker.drop 11 :: body) :: sectionsGo rest
termination_by ls => ls.length
decreasing_by exact Nat.lt_succ_of_le (lenDropWhileLe _ _)

def sectionsOf (ls : Lines) : List Lines :=
  let pre := ls.takeWhile (fun l => !startsWithL l (str "diff --git "))
  let rest := ls.dropWhile (fun l => !startsWithL l (str "diff --git "))
  let preKeep :=
    if rest.isEmpty then !(pre.isEmpty || pre == [([] : Str)]) else !pre.isEmpty
  (if preKeep then [pre] else []) ++ sectionsGo rest

/-- The per-section path scan of `extractPathsFromHeaders`. -/
def sectionPaths (sec : Lines) : Str × Str :=
  let header := jsTrim (sec.headD [])
  let init : Str × Str :=
    match abHeaderMatch header with
    | some (o, n) => (normalizePath (some o), normalizePath (some n))
    | none => (str "file", str "file")
  sec.foldl
    (fun (acc : Str × Str) line =>
      if startsWithL line (str "rename from ") then (normalizePath (some (line.drop 12)), acc.2)
      else if startsWithL line (str "rename to ") then (acc.1, normalizePath (some (line.drop 10)))
      else if startsWithL line (str "--- ") then (normalizePath (some (line.drop 4)), acc.2)
      else if startsWithL line (str "+++ ") then (acc.1, normalizePath (some (line.drop 4)))
      else acc)
    init

/-- `extractPathsFromHeaders(diffText)` of diff.ts, on the split lines. -/
def extractPathsFromHeaders (ls : Lines) : List (Str × Str) :=
  (sectionsOf ls).map sectionPaths

/-- The per-hunk line-building loop of diff.ts `parseUnifiedDiff`. -/
def hunkLines : List Str → Int → Int → List DiffLine × Nat × Nat
  | [], _, _ => ([], 0, 0)
  | rawLine :: rest, oldLine, newLine =>
    if startsWithL rawLine (str "\\") then hunkLines rest oldLine newLine
    else if startsWithL rawLine (str "+") then
      let (ds, a, d) := hunkLines rest oldLine (newLine + 1)
      (⟨.added, some (rawLine.drop 1), none, some newLine, none⟩ :: ds, a + 1, d)
    else if startsWithL rawLine (str "-") then
      let (ds, a, d) := hunkLines rest (oldLine + 1) newLine
      (⟨.removed, some (rawLine.drop 1), some oldLine, none, none⟩ :: ds, a, d + 1)
    else
      let content := if startsWithL rawLine (str " ") then rawLine.drop 1 else rawLine
      let (ds, a, d) := hunkLines rest (oldLine + 1) (newLine + 1)
      (⟨.unchanged, some content, some oldLine, some newLine, none⟩ :: ds, a, d)

/-- The per-file body of diff.ts `parseUnifiedDiff`'s `for` loop. -/
def buildFile (file : ParsedFile) (fallbackPaths : Option (Str × Str)) : FileDiff :=
  let rawOldPath :=
    if normalizePath file.oldFileName ≠ str "file" then normalizePath file.oldFileName
    else (match fallbackPaths with | some p => p.1 | none => str "file")
  let rawNewPath :=
    if normalizePath file.newFileName ≠ str "file" then normalizePath file.newFileName
    else (match fallbackPaths with | some p => p.2 | none => str "file")
  let oldPath :=
    if rawOldPath = str "/dev/null" then (if rawNewPath.isEmpty then str "file" else rawNewPath)
    else rawOldPath
  let newPath :=
    if rawNewPath = str "/dev/null" then (if rawOldPath.isEmpty then str "file" else rawOldPath)
    else rawNewPath
  let built := file.hunks.mapIdx fun idx hunk =>
    let (chunkLines, a, d) := hunkLines hunk.lines hunk.oldStart hunk.newStart
    ({ oldStart := hunk.oldStart
       oldLength := hunk.oldLines
       newStart := hunk.newStart
       newLength := hunk.newLines
       lines := addWordDiffs chunkLines
       id := newPath ++ str "-chunk-" ++ (toString idx).data : DiffChunk }, a, d)
  { oldPath := oldPath
    newPath := newPath
    chunks := built.map (·.1)
    type :=
      if rawOldPath = str "/dev/null" then .added
      else if rawNewPath = str "/dev/null" then .deleted
      else if oldPath ≠ newPath then .renamed
      else .modified
    additions := ((built.map (·.2.1)).sum : Nat)
    deletions := ((built.map (·.2.2)).sum : Nat) }

/-- `parseSimpleDiff(lines)` of diff.ts. -/
def parseSimpleDiff : Lines → Option FileDiff :=
  parseSimpleDiffWith computeWordDiff

/-- `parseUnifiedDiff(diffText)` of diff.ts, on the split lines; the external
`parsePatch` is the spec-modelled one above. -/
def parseUnifiedDiff (ls : Lines) : List FileDiff :=
  let parsed := parsePatch ls
  let headerPaths := extractPathsFromHeaders ls
  let files := parsed.mapIdx fun index file => buildFile file headerPaths[index]?
  if files.isEmpty && hasNonWs ls then
    if hasMarkers ls then
      match parseSimpleDiff ls with
      | some f => [f]
      | none => []
    else []
  else files

/-- `String(n)` for the region key (`${chunk.id}-${collapse.start}`). -/
def intStr (n : Int) : Str := (toString n).data

/-- `lines.findIndex(line => line.type !== 'unchanged')` (−1 when absent). -/
def firstChangedLineIndex (lines : List DiffLine) : Int :=
  match lines.findIdx? (fun l => l.type != .unchanged) with
  | some n => (n : Int)
  | none => -1

/- The `while (i < lines.length)` row loop of diff.ts
`buildSideBySideRows` (mutually with `rowsStep`, its non-collapsed body).
In the collapse branch the next index is written
`max (i + 1) collapse.stop.toNat`: every region produced by
`computeCollapsibleRegions` satisfies `start < stop`, so on reachable inputs
this equals the source's `i = collapse.end`; the `max` only serves the
termination argument. -/
mutual

/-- The main row loop (see the comment above `mutual`). -/
def rowsLoop (lines : List DiffLine) (chunkId : Str) (fCLI : Int)
    (collapsible : List ChangeRegion) (expandedRegions : List Str)
    (i : Nat) : List SideBySideRow :=
  if h : i < lines.length then
    match collapsible.find? (fun c => c.start == (i : Int)) with
    | some collapse =>
      if expandedRegions.contains (chunkId ++ str "-" ++ intStr collapse.start) then
        rowsStep lines chunkId fCLI collapsible expandedRegions i h
      else
        { left := none
          right := none
          chunkId := chunkId
          isFirstInChunk := false
          isCollapsedPlaceholder := true
          collapsedCount := some (collapse.stop - collapse.start)
          collapsedStart := some collapse.start } ::
          rowsLoop lines chunkId fCLI collapsible expandedRegions
            (if collapse.stop.toNat ≤ i then i + 1 else collapse.stop.toNat)
    | none => rowsStep lines chunkId fCLI collapsible expandedRegions i h
  else []
termination_by (lines.length - i, 1)
decreasing_by
  all_goals simp only [Prod.lex_def]
  all_goals first
    | omega
    | (split <;> omega)
    | simp

/-- The unchanged / removed-run / added branches of the row loop body. -/
def rowsStep (lines : List DiffLine) (chunkId : Str) (fCLI : Int)
    (collapsible : List ChangeRegion) (expandedRegions : List Str)
    (i : Nat) (h : i < lines.length) : List SideBySideRow :=
  match lines[i].type with
  | .unchanged =>
    { left := some lines[i]
      right := some lines[i]
      chunkId := chunkId
      isFirstInChunk := false } ::
      rowsLoop lines chunkId fCLI collapsible expandedRegions (i + 1)
  | .removed =>
    -- the line at `i` is removed, so the removed run starts with it
    let remRun := lines[i] :: (lines.drop (i + 1)).takeWhile (fun x => x.type == .removed)
    let removedCount := remRun.length
    let addedRun := (lines.drop (i + removedCount)).takeWhile (fun x => x.type == .added)
    let addedCount := addedRun.length
    let maxCount := max removedCount addedCount
    ((List.range maxCount).map fun j =>
      let leftLineIndex : Int := if j < removedCount then ((i + j : Nat) : Int) else -1
      let rightLineIndex : Int :=
        if j < addedCount then ((i + removedCount + j : Nat) : Int) else -1
      { left := remRun[j]?
        right := addedRun[j]?
        chunkId := chunkId
        isFirstInChunk := leftLineIndex == fCLI || rightLineIndex == fCLI
        : SideBySideRow })
      ++ rowsLoop lines chunkId fCLI collapsible expandedRegions
          (i + removedCount + addedCount)
  | .added =>
    { left := none
      right := some lines[i]
      chunkId := chunkId
      isFirstInChunk := (i : Int) == fCLI } ::
      rowsLoop lines chunkId fCLI collapsible expandedRegions (i + 1)
termination_by (lines.length - i, 0)
decreasing_by
  all_goals simp only [Prod.lex_def, List.length_cons]
  all_goals first
    | omega
    | simp

end

/-- `buildSideBySideRows(chunks, contextLines, expandedRegions)` of diff.ts,
restricted to one chunk of the loop. -/
def rowsForChunk (chunk : DiffChunk) (contextLines : Int)
    (expandedRegions : List Str) : List SideBySideRow :=
  let lines := chunk.lines
  let fCLI := firstChangedLineIndex lines
  let changeRegions := findChangeRegions lines
  let collapsible := computeCollapsibleRegions lines changeRegions contextLines
  rowsLoop lines chunk.id fCLI collapsible expandedRegions 0

/-- `buildSideBySideRows(chunks, contextLines, expandedRegions)` of diff.ts. -/
def buildSideBySideRows (chunks : List DiffChunk) (contextLines : Int)
    (expandedRegions : List Str) : List SideBySideRow :=
  (chunks.map fun c => rowsForChunk c contextLines expandedRegions).flatten

end DiffTs

-- ── Claim theorems ───────────────────────────────────────────────

/-- **C1** (code bug): the claim says that replaying the edit script returned
by `myersDiff` against `A` yields exactly `B` for every `A`, `B`.  The code
violates this: `backtrack` reads `trace[d - 1]` (the frontier *two* edit
distances back) where the Myers invariant requires `trace[d]`, so already for
`A = ["a"]`, `B = ["b"]` the returned script contains out-of-bounds
`delete`/`insert` edits with `undefined` values, and its replay does not
reproduce `B`.  This theorem evaluates the code at that failing input. -/
theorem myersDiff_roundtrip_fails_on_a_b :
    DiffV1.myersDiff [str "a"] [str "b"] =
      [⟨.delete, -1, -1, none⟩, ⟨.insert, 0, -1, none⟩, ⟨.equal, 0, 0, some (str "a")⟩] ∧
    replayEdits (DiffV1.myersDiff [str "a"] [str "b"]) [str "a"] ≠ some [str "b"] := by
  constructor
  · decide
  · decide

/-- **C2** (code bug): the claim says that for every pair of lines reaching
`computeWordDiff`, concatenating the old-side segment texts reproduces the
old line and the new-side texts the new line.  Because `computeWordDiff`
feeds the token sequences through the broken `myersDiff` (see C1), already
for the paired lines `"a"` / `"b"` the old side comes back as an `undefined`
removed segment followed by a spurious unchanged `"a"`, so no concatenation
of the segment texts equals the old line (the new side fails likewise). -/
theorem computeWordDiff_reconstruction_fails_on_a_b :
    (DiffV1.computeWordDiff (some (str "a")) (some (str "b"))).1 =
      [⟨none, .removed⟩, ⟨some (str "a"), .unchanged⟩] ∧
    segmentsText (DiffV1.computeWordDiff (some (str "a")) (some (str "b"))).1 ≠
      some (str "a") ∧
    segmentsText (DiffV1.computeWordDiff (some (str "a")) (some (str "b"))).2 ≠
      some (str "b") := by
  refine ⟨by decide, by decide, by decide⟩

/-- **C3** (confirmed): `parseUnifiedDiff` never throws — every parsing
function of the embedding is a total Lean function — and in particular a line
that starts with `@@` but does not match the hunk-header grammar is skipped:
the hunk scan continues at the next line with all accumulators unchanged, so
the rest of the input is still processed. -/
theorem parseHunks_skips_malformed_header
    (l : Str) (rest : Lines) (oldPath newPath : Str) (chunks : List DiffChunk)
    (tA tR chunkIdx : Nat)
    (hat : startsWithL l (str "@@") = true)
    (hmal : DiffV1.hunkHeaderMatch l = none) :
    DiffV1.parseHunksAux oldPath newPath (l :: rest) chunks tA tR chunkIdx =
      DiffV1.parseHunksAux oldPath newPath rest chunks tA tR chunkIdx := by
  have hgit := DiffV1.at_not_git l hat
  conv_lhs => rw [DiffV1.parseHunksAux]
  simp [hgit, hat, hmal]

/-- Witness for C3: the malformed header `"@@ bogus"` is skipped and parsing
resumes at the next line. -/
theorem parseHunks_skips_malformed_header_witness :
    DiffV1.parseHunksAux (str "a") (str "b") [str "@@ bogus", str "+x"] [] 0 0 0 =
      DiffV1.parseHunksAux (str "a") (str "b") [str "+x"] [] 0 0 0 :=
  parseHunks_skips_malformed_header _ _ _ _ _ _ _ _ (by decide) (by decide)

/-- The rename-only patch of the claim (a git file header with rename
markers and no hunks). -/
def renameOnlyInput : Lines :=
  [str "diff --git a/old.txt b/new.txt", str "similarity index 100%",
   str "rename from old.txt", str "rename to new.txt"]

/-- **C4** (confirmed, against the engine actually imported by the app;
`parsePatch` of the npm `diff` package is spec-modelled): a diff consisting
only of a file header with `rename from old.txt` / `rename to new.txt` and no
hunks parses to exactly one `FileDiff` with kind `renamed`,
`oldPath = "old.txt"`, `newPath = "new.txt"` and zero chunks.  (The repo's own
test `classifies rename-only patches without hunks` asserts the same.) -/
theorem parseUnifiedDiff_rename_only :
    DiffTs.parseUnifiedDiff renameOnlyInput =
      [{ oldPath := str "old.txt", newPath := str "new.txt", chunks := [],
         type := .renamed, additions := 0, deletions := 0 }] := by
  simp [DiffTs.parseUnifiedDiff, DiffTs.parsePatch, DiffTs.parsePatchGo,
    DiffTs.extractPathsFromHeaders, DiffTs.sectionsOf, DiffTs.sectionsGo,
    DiffTs.sectionPaths, DiffTs.abHeaderMatch, DiffV1.splitLazyB,
    DiffTs.normalizePath, DiffTs.buildFile, startsWithL, str, jsTrim,
    renameOnlyInput, DiffV1.parseHunkAt]

/-- The added-file-via-`/dev/null` inputs of the claim, parametric in the
contents of the two added lines. -/
def devNullAddedInput (c1 c2 : Str) : Lines :=
  [str "--- /dev/null", str "+++ b/new.txt", str "@@ -0,0 +1,2 @@", '+' :: c1, '+' :: c2]

/-- **C5** (confirmed, against the engine actually imported by the app;
`parsePatch` of the npm `diff` package is spec-modelled): a unified diff
whose file entry has `--- /dev/null`, `+++ b/new.txt` and one hunk of exactly
two added lines (any contents) parses to one `FileDiff` with kind `added`,
`additions = 2`, `deletions = 0`, and the non-null path `"new.txt"` used for
both `oldPath` and `newPath`.  (The repo's own test `classifies /dev/null as
added file` asserts the same.) -/
theorem parseUnifiedDiff_dev_null_added (c1 c2 : Str) :
    (DiffTs.parseUnifiedDiff (devNullAddedInput c1 c2)).map
        (fun f => (f.type, f.additions, f.deletions, f.oldPath, f.newPath)) =
      [(.added, 2, 0, str "new.txt", str "new.txt")] := by
  simp [DiffTs.parseUnifiedDiff, DiffTs.parsePatch, DiffTs.parsePatchGo,
    DiffTs.extractPathsFromHeaders, DiffTs.sectionsOf, DiffTs.sectionsGo,
    DiffTs.sectionPaths, DiffTs.abHeaderMatch, DiffV1.splitLazyB,
    DiffTs.normalizePath, DiffTs.buildFile, DiffTs.hunkLines, DiffTs.addWordDiffs,
    addWordDiffsWith, DiffTs.isHunkBodyLine, startsWithL, str, jsTrim,
    devNullAddedInput, DiffV1.parseHunkAt, digitRun, digitsToInt]

/-- A chunk whose single maximal unchanged run (length 8) leads into one
removed line — the counterexample shape for the collapsing-threshold claim. -/
def collapseExampleLines : List DiffLine :=
  [⟨.unchanged, some (str "ctx"), some 1, some 1, none⟩,
   ⟨.unchanged, some (str "ctx"), some 2, some 2, none⟩,
   ⟨.unchanged, some (str "ctx"), some 3, some 3, none⟩,
   ⟨.unchanged, some (str "ctx"), some 4, some 4, none⟩,
   ⟨.unchanged, some (str "ctx"), some 5, some 5, none⟩,
   ⟨.unchanged, some (str "ctx"), some 6, some 6, none⟩,
   ⟨.unchanged, some (str "ctx"), some 7, some 7, none⟩,
   ⟨.unchanged, some (str "ctx"), some 8, some 8, none⟩,
   ⟨.removed, some (str "x"), some 9, none, none⟩]

def collapseExampleChunk : DiffChunk :=
  ⟨1, 9, 1, 8, collapseExampleLines, str "c"⟩

set_option maxRecDepth 8000
set_option maxHeartbeats 2000000

/-- **C6** counterexample: the claim says an unchanged run of length `L`
collapses iff `L − 2·context ≥ 4`.  Here the chunk's only maximal unchanged
run is the leading run `[0, 8)` of length `L = 8` with `context = 3`, so the
claimed threshold says it must *not* collapse (`8 − 6 = 2 < 4`); but the code
uses `start > context + 4` for leading runs, producing the collapsible region
`[0, 5)` (which the row builder then renders as a collapsed placeholder). -/
theorem collapse_threshold_counterexample :
    findChangeRegions collapseExampleLines = [⟨8, 9⟩] ∧
    computeCollapsibleRegions collapseExampleLines
        (findChangeRegions collapseExampleLines) 3 = [⟨0, 5⟩] ∧
    ¬ ((8 : Int) - 2 * 3 ≥ 4) := by
  refine ⟨by decide, by decide, by decide⟩

/-- Membership characterization of `computeCollapsibleRegions` (shared
helper): a region is emitted iff it is the trimmed form of a leading,
interior, or trailing gap between consecutive change regions (or the
whole-chunk region when there are no changes), under the respective
threshold.  For consecutive change regions `a`, `b`, the gap `[a.stop,
b.start)` is the maximal unchanged run between them and its length is
`b.start - a.stop`. -/
theorem computeCollapsibleRegionsMemAux (lines : List DiffLine)
    (changeRegions : List ChangeRegion) (contextLines : Int) (r : ChangeRegion) :
    r ∈ computeCollapsibleRegions lines changeRegions contextLines ↔
      (changeRegions = [] ∧
        (lines.length : Int) > contextLines * 2 + 1 ∧
        r = ⟨contextLines, (lines.length : Int) - contextLines⟩) ∨
      (∃ first rest, changeRegions = first :: rest ∧
        first.start > contextLines + 4 ∧
        r = ⟨0, first.start - contextLines⟩) ∨
      (∃ a b, (a, b) ∈ changeRegions.zip changeRegions.tail ∧
        (b.start - a.stop) - 2 * contextLines ≥ 4 ∧
        r = ⟨a.stop + contextLines, b.start - contextLines⟩) ∨
      (∃ first rest, (changeRegions = first :: rest ∧
        (lines.length : Int) - ((first :: rest).getLast (by simp)).stop > contextLines + 4) ∧
        r = ⟨((first :: rest).getLast (by simp)).stop + contextLines, (lines.length : Int)⟩) := by
  cases changeRegions with
  | nil =>
    simp only [computeCollapsibleRegions]
    constructor
    · intro hm
      split at hm
      · refine Or.inl ⟨by trivial, by assumption, ?_⟩
        simpa using hm
      · simp at hm
    · rintro (⟨-, hc, hr⟩ | ⟨f, rest, h, -⟩ | ⟨a, b, h, -⟩ | ⟨f, rest, ⟨h, -⟩, -⟩)
      · rw [if_pos hc]; simp [hr]
      · simp at h
      · simp at h
      · simp at h
  | cons first rest =>
    simp only [computeCollapsibleRegions, List.mem_append, List.mem_filterMap]
    constructor
    · rintro ((hlead | ⟨⟨a, b⟩, hab, hsome⟩) | htrail)
      · split at hlead
        · rename_i hcond
          refine Or.inr (Or.inl ⟨first, rest, rfl, hcond, ?_⟩)
          simpa using hlead
        · simp at hlead
      · dsimp only at hsome
        split at hsome
        · rename_i hcond
          refine Or.inr (Or.inr (Or.inl ⟨a, b, hab, by omega, ?_⟩))
          simpa using hsome.symm
        · simp at hsome
      · split at htrail
        · rename_i hcond
          refine Or.inr (Or.inr (Or.inr ⟨first, rest, ⟨rfl, hcond⟩, ?_⟩))
          simpa using htrail
        · simp at htrail
    · rintro (⟨h, -, -⟩ | ⟨f, rs, heq, hc, hr⟩ | ⟨a, b, hab, hc, hr⟩ | ⟨f, rs, ⟨heq, hc⟩, hr⟩)
      · exact absurd h (by simp)
      · obtain ⟨rfl, rfl⟩ : first = f ∧ rest = rs := by
          injection heq with h1 h2; exact ⟨h1, h2⟩
        refine Or.inl (Or.inl ?_)
        rw [if_pos hc]; simp [hr]
      · refine Or.inl (Or.inr ⟨(a, b), hab, ?_⟩)
        dsimp only
        rw [if_pos (by omega)]; simp [hr]
      · obtain ⟨rfl, rfl⟩ : first = f ∧ rest = rs := by
          injection heq with h1 h2; exact ⟨h1, h2⟩
        refine Or.inr ?_
        rw [if_pos hc]; simp [hr]

theorem fcrGo_bounds (ls : List DiffLine) :
    ∀ (i : Nat) (st : Option Nat), (∀ s, st = some s → s < i) →
    ∀ r ∈ fcrGo ls i st,
      ((match st with | none => (i : Int) | some s => (s : Int)) ≤ r.start) ∧
      r.start < r.stop ∧ r.stop ≤ ((i + ls.length : Nat) : Int) := by
  induction ls with
  | nil =>
    intro i st hst r hr
    match st with
    | none => simp [fcrGo] at hr
    | some s =>
      simp only [fcrGo, List.mem_singleton] at hr
      subst hr
      have := hst s rfl
      refine ⟨le_refl _, ?_, ?_⟩
      · show (s : Int) < (i : Int)
        exact_mod_cast this
      · show (i : Int) ≤ ((i + 0 : Nat) : Int)
        simp
  | cons l rest ih =>
    intro i st hst r hr
    match st with
    | none =>
      simp only [fcrGo] at hr
      split at hr
      · have := ih (i + 1) (some i) (by intro s hs; cases hs; omega) r hr
        simp only at this
        refine ⟨this.1, this.2.1, ?_⟩
        have h2 := this.2.2
        simp only [List.length_cons]
        push_cast at h2 ⊢
        omega
      · have := ih (i + 1) none (by simp) r hr
        simp only at this
        refine ⟨?_, this.2.1, ?_⟩
        · have h1 := this.1; push_cast at h1 ⊢; omega
        · have h2 := this.2.2; simp only [List.length_cons]; push_cast at h2 ⊢; omega
    | some s =>
      have hsi := hst s rfl
      simp only [fcrGo] at hr
      split at hr
      · have := ih (i + 1) (some s) (by intro s' hs'; cases hs'; omega) r hr
        simp only at this
        refine ⟨this.1, this.2.1, ?_⟩
        have h2 := this.2.2; simp only [List.length_cons]; push_cast at h2 ⊢; omega
      · rcases List.mem_cons.mp hr with hr | hr
        · subst hr
          refine ⟨le_refl _, ?_, ?_⟩
          · show (s : Int) < (i : Int)
            exact_mod_cast hsi
          · show (i : Int) ≤ ((i + (l :: rest).length : Nat) : Int)
            push_cast; omega
        · have := ih (i + 1) none (by simp) r hr
          simp only at this
          refine ⟨?_, this.2.1, ?_⟩
          · have h1 := this.1; push_cast at h1 ⊢; omega
          · have h2 := this.2.2; simp only [List.length_cons]; push_cast at h2 ⊢; omega

theorem fcrGo_pairwise (ls : List DiffLine) :
    ∀ (i : Nat) (st : Option Nat), (∀ s, st = some s → s < i) →
    (fcrGo ls i st).Pairwise (fun a b => a.stop ≤ b.start) := by
  induction ls with
  | nil =>
    intro i st hst
    match st with
    | none => simp [fcrGo]
    | some s => simp [fcrGo]
  | cons l rest ih =>
    intro i st hst
    match st with
    | none =>
      simp only [fcrGo]
      split
      · exact ih (i + 1) (some i) (by intro s hs; cases hs; omega)
      · exact ih (i + 1) none (by simp)
    | some s =>
      have hsi := hst s rfl
      simp only [fcrGo]
      split
      · exact ih (i + 1) (some s) (by intro s' hs'; cases hs'; omega)
      · refine List.Pairwise.cons ?_ (ih (i + 1) none (by simp))
        intro r hr
        have := (fcrGo_bounds rest (i + 1) none (by simp) r hr).1
        simp only at this
        show (i : Int) ≤ r.start
        have : ((i : Int) + 1) ≤ r.start := by exact_mod_cast this
        omega

theorem fcrGo_some_head (ls : List DiffLine) :
    ∀ (i s : Nat), s < i →
    ∃ (e : Int) (tl : List ChangeRegion),
      fcrGo ls i (some s) = ⟨(s : Int), e⟩ :: tl ∧ (s : Int) < e := by
  induction ls with
  | nil =>
    intro i s hsi
    exact ⟨(i : Int), [], rfl, by exact_mod_cast hsi⟩
  | cons l rest ih =>
    intro i s hsi
    simp only [fcrGo]
    split
    · exact ih (i + 1) s (by omega)
    · exact ⟨(i : Int), fcrGo rest (i + 1) none, rfl, by exact_mod_cast hsi⟩

theorem fcrGo_none_first (ls : List DiffLine) :
    ∀ (i k : Nat) (hk : k < ls.length),
    (ls[k].type != .unchanged) = true →
    (∀ j (hj : j < k), ls[j].type = .unchanged) →
    ∃ (e : Int) (tl : List ChangeRegion),
      fcrGo ls i none = ⟨((i + k : Nat) : Int), e⟩ :: tl ∧ ((i + k : Nat) : Int) < e := by
  induction ls with
  | nil => intro i k hk; simp at hk
  | cons l rest ih =>
    intro i k hk hchg hmin
    match k with
    | 0 =>
      simp only [List.getElem_cons_zero] at hchg
      simp only [fcrGo, hchg, if_true]
      simpa using fcrGo_some_head rest (i + 1) i (by omega)
    | k' + 1 =>
      have hl : l.type = .unchanged := by
        have := hmin 0 (by omega)
        simpa using this
      have hnc : (l.type != DiffLineType.unchanged) = false := by simp [hl]
      simp only [fcrGo, hnc, Bool.false_eq_true, if_false]
      have := ih (i + 1) k' (by simpa using hk)
        (by simpa using hchg)
        (by
          intro j hj
          have := hmin (j + 1) (by omega)
          simpa using this)
      simpa [Nat.add_assoc, Nat.add_comm 1 k'] using this

theorem collapsible_sides (lines : List DiffLine) (contextLines : Int)
    (hctx : 0 ≤ contextLines) (N : Nat) (e : Int) (tl : List ChangeRegion)
    (hcr : findChangeRegions lines = ⟨(N : Int), e⟩ :: tl) (hNe : (N : Int) < e) :
    ∀ r ∈ computeCollapsibleRegions lines (findChangeRegions lines) contextLines,
      r.start < r.stop ∧ (r.stop ≤ (N : Int) ∨ (N : Int) < r.start) := by
  have hge : ∀ a ∈ findChangeRegions lines, (N : Int) < a.stop ∧ a.start < a.stop := by
    intro a ha
    have hbds := fcrGo_bounds lines 0 none (by simp) a (by simpa [findChangeRegions] using ha)
    have hpw : (findChangeRegions lines).Pairwise (fun a b => a.stop ≤ b.start) :=
      fcrGo_pairwise lines 0 none (by simp)
    rw [hcr] at ha hpw
    rcases List.mem_cons.mp ha with rfl | ha
    · exact ⟨hNe, hbds.2.1⟩
    · have := (List.pairwise_cons.mp hpw).1 a ha
      simp only at this
      exact ⟨lt_of_lt_of_le hNe (le_trans this (le_of_lt hbds.2.1)), hbds.2.1⟩
  intro r hr
  rw [computeCollapsibleRegionsMemAux] at hr
  rcases hr with ⟨h0, -, -⟩ | ⟨first, rest, heq, hc, hr⟩ | ⟨a, b, hab, hc, hr⟩ |
    ⟨first, rest, ⟨heq, hc⟩, hr⟩
  · rw [hcr] at h0; cases h0
  · -- leading region [0, first.start − context)
    have hfirst : first = ⟨(N : Int), e⟩ := by
      rw [hcr] at heq; injection heq with h1 h2; exact h1.symm
    subst hr
    subst hfirst
    simp only at hc ⊢
    constructor
    · omega
    · left; omega
  · -- interior region
    have hamem : a ∈ findChangeRegions lines := (List.mem_zip hab).1
    have ha := hge a hamem
    subst hr
    simp only
    constructor
    · omega
    · right; omega
  · -- trailing region
    have hlast : (first :: rest).getLast (by simp) ∈ findChangeRegions lines := by
      rw [heq]; exact List.getLast_mem _
    have ha := hge _ hlast
    subst hr
    simp only
    constructor
    · omega
    · right; omega

/-- **C6** (amended): the claim's threshold `L − 2·context ≥ 4` is correct
only for a maximal unchanged run lying strictly between two change runs
(there `L = b.start − a.stop` for the consecutive change regions `a`, `b`).
A run touching the chunk's start collapses iff `L > context + 4`
(equivalently `L − context ≥ 5`, with `L = first.start`), a run touching the
chunk's end collapses iff `L > context + 4` (with `L = length − last.stop`),
and a chunk with no changed line collapses as the single region
`[context, length − context)` iff `length > 2·context + 1`. -/
theorem collapse_threshold_amended (lines : List DiffLine)
    (changeRegions : List ChangeRegion) (contextLines : Int) (r : ChangeRegion) :
    r ∈ computeCollapsibleRegions lines changeRegions contextLines ↔
      (changeRegions = [] ∧
        (lines.length : Int) > contextLines * 2 + 1 ∧
        r = ⟨contextLines, (lines.length : Int) - contextLines⟩) ∨
      (∃ first rest, changeRegions = first :: rest ∧
        first.start > contextLines + 4 ∧
        r = ⟨0, first.start - contextLines⟩) ∨
      (∃ a b, (a, b) ∈ changeRegions.zip changeRegions.tail ∧
        (b.start - a.stop) - 2 * contextLines ≥ 4 ∧
        r = ⟨a.stop + contextLines, b.start - contextLines⟩) ∨
      (∃ first rest, (changeRegions = first :: rest ∧
        (lines.length : Int) - ((first :: rest).getLast (by simp)).stop > contextLines + 4) ∧
        r = ⟨((first :: rest).getLast (by simp)).stop + contextLines, (lines.length : Int)⟩) :=
  computeCollapsibleRegionsMemAux lines changeRegions contextLines r

theorem takeWhile_getElem? (p : α → Bool) (xs : List α) (k : Nat)
    (hk : k < (xs.takeWhile p).length) : (xs.takeWhile p)[k]? = xs[k]? := by
  have hpre := List.takeWhile_prefix (l := xs) p
  have hlen : k < xs.length := lt_of_lt_of_le hk hpre.length_le
  rw [List.getElem?_eq_getElem hk, List.getElem?_eq_getElem hlen]
  exact congrArg some (hpre.getElem hk)

theorem countP_range_single (p : Nat → Bool) (n : Nat) (hn : 0 < n)
    (h0 : p 0 = true) (hrest : ∀ j, 0 < j → p j = false) :
    (List.range n).countP p = 1 := by
  obtain ⟨m, rfl⟩ : ∃ m, n = m + 1 := ⟨n - 1, by omega⟩
  rw [List.range_succ_eq_map]
  rw [List.countP_cons_of_pos _ _ h0, List.countP_map]
  have hz : List.countP (p ∘ (· + 1)) (List.range m) = 0 := by
    rw [List.countP_eq_zero]
    intro j hj
    simpa using hrest (j + 1) (by omega)
  have hfe : List.countP (p ∘ Nat.succ) (List.range m) =
      List.countP (p ∘ (· + 1)) (List.range m) := by
    apply List.countP_congr
    intro j hj
    simp
  omega

theorem countP_range_zero (p : Nat → Bool) (n : Nat)
    (hrest : ∀ j, p j = false) : (List.range n).countP p = 0 := by
  rw [List.countP_eq_zero]
  intro j hj
  simp [hrest j]

theorem rowsLoop_flag_count (lines : List DiffLine) (cid : Str)
    (regions : List ChangeRegion) (exp : List Str) (N : Nat)
    (hNlt : N < lines.length)
    (hchg : ¬ lines[N].type = .unchanged)
    (hmin : ∀ j (hj : j < N), lines[j].type = .unchanged)
    (hreg : ∀ r ∈ regions, r.start < r.stop ∧ (r.stop ≤ (N : Int) ∨ (N : Int) < r.start)) :
    ∀ i, (DiffTs.rowsLoop lines cid (N : Int) regions exp i).countP
          (fun r => r.isFirstInChunk) = (if i ≤ N then 1 else 0) ∧
      ∀ row ∈ DiffTs.rowsLoop lines cid (N : Int) regions exp i,
        row.isFirstInChunk = true →
        (row.left = some lines[N] ∨ row.right = some lines[N]) := by
  refine DiffTs.rowsLoop.induct lines cid (N : Int) regions exp
    (fun i => (DiffTs.rowsLoop lines cid (N : Int) regions exp i).countP
          (fun r => r.isFirstInChunk) = (if i ≤ N then 1 else 0) ∧
      ∀ row ∈ DiffTs.rowsLoop lines cid (N : Int) regions exp i,
        row.isFirstInChunk = true →
        (row.left = some lines[N] ∨ row.right = some lines[N]))
    (fun i h => (DiffTs.rowsStep lines cid (N : Int) regions exp i h).countP
          (fun r => r.isFirstInChunk) = (if i ≤ N then 1 else 0) ∧
      ∀ row ∈ DiffTs.rowsStep lines cid (N : Int) regions exp i h,
        row.isFirstInChunk = true →
        (row.left = some lines[N] ∨ row.right = some lines[N]))
    ?_ ?_ ?_ ?_ ?_ ?_ ?_
  · -- collapse found but expanded: the loop delegates to the step body
    intro i h collapse hfind hcont ih
    rw [DiffTs.rowsLoop]
    simp only [dif_pos h, hfind, hcont, if_true]
    exact ih
  · -- collapse found and not expanded: placeholder row, jump to region end
    intro i h collapse hfind hcont ih
    simp only [dite_eq_ite] at ih
    have hc := List.mem_of_find?_eq_some hfind
    have hstart : collapse.start = (i : Int) := by
      have := List.find?_some hfind
      simpa [beq_iff_eq] using this
    obtain ⟨hlt, hside⟩ := hreg collapse hc
    rw [DiffTs.rowsLoop]
    simp only [dif_pos h, hfind]
    rw [if_neg hcont]
    constructor
    · rw [List.countP_cons_of_neg _ _ (by simp)]
      rw [ih.1]
      have : (if collapse.stop.toNat ≤ i then i + 1 else collapse.stop.toNat) ≤ N ↔ i ≤ N := by
        rcases hside with hle | hgt
        · constructor
          · intro _
            have : (i : Int) < (N : Int) := lt_of_lt_of_le (hstart ▸ hlt) hle
            omega
          · intro _
            split
            · omega
            · have h1 : collapse.stop.toNat ≤ N := by omega
              omega
        · have : (N : Int) < (i : Int) := hstart ▸ hgt
          constructor
            <;> intro hx
            <;> [skip; omega]
            <;> split at hx
            <;> omega
      split <;> split at this <;> simp_all <;> omega
    · intro row hrow hflagrow
      rcases List.mem_cons.mp hrow with rfl | hrow
      · simp at hflagrow
      · exact ih.2 row hrow hflagrow
  · -- no collapse at this index
    intro i h hfind ih
    rw [DiffTs.rowsLoop]
    simp only [dif_pos h, hfind]
    exact ih
  · -- past the end of the chunk
    intro i hge
    rw [DiffTs.rowsLoop]
    simp only [dif_neg hge]
    refine ⟨?_, by simp⟩
    rw [if_neg (by omega)]
    simp
  · -- unchanged line
    intro i h hunch ih
    have hiN : i ≠ N := by
      intro hiq; exact hchg (hiq ▸ hunch)
    rw [DiffTs.rowsStep]
    simp only [hunch]
    constructor
    · rw [List.countP_cons_of_neg _ _ (by simp)]
      rw [ih.1]
      by_cases hle : i ≤ N
      · rw [if_pos hle, if_pos (by omega)]
      · rw [if_neg hle, if_neg (by omega)]
    · intro row hrow hflagrow
      rcases List.mem_cons.mp hrow with rfl | hrow
      · simp at hflagrow
      · exact ih.2 row hrow hflagrow
  · -- removed run followed by added run
    intro i h hrem remRun removedCount addedRun addedCount ih
    have hiN : ¬ i < N := by
      intro hilt
      have := hmin i hilt
      rw [this] at hrem
      exact absurd hrem (by simp)
    have hrc : 1 ≤ removedCount := by
      simp only [removedCount, remRun, List.length_cons]
      omega
    have hremget : ∀ j, j < removedCount → remRun[j]? = lines[i + j]? := by
      intro j hj
      match j with
      | 0 =>
        simp only [remRun, List.getElem?_cons_zero, Nat.add_zero]
        rw [List.getElem?_eq_getElem h]
      | k + 1 =>
        simp only [remRun, List.getElem?_cons_succ]
        have hk : k < (List.takeWhile (fun x => x.type == DiffLineType.removed)
            (List.drop (i + 1) lines)).length := by
          simp only [removedCount, remRun, List.length_cons] at hj
          omega
        rw [takeWhile_getElem? _ _ _ hk, List.getElem?_drop]
        congr 1
        omega
    have haddget : ∀ j, j < addedCount → addedRun[j]? = lines[i + removedCount + j]? := by
      intro j hj
      have hk : j < (List.takeWhile (fun x => x.type == DiffLineType.added)
          (List.drop (i + removedCount) lines)).length := hj
      simp only [addedRun]
      rw [takeWhile_getElem? _ _ _ hk, List.getElem?_drop]
    rw [DiffTs.rowsStep]
    simp only [hrem]
    constructor
    · rw [List.countP_append, List.countP_map, ih.1]
      have hrecz : ¬ (i + removedCount + addedCount ≤ N) := by omega
      rw [if_neg hrecz, Nat.add_zero]
      by_cases hiq : i = N
      · subst hiq
        rw [if_pos (le_refl _)]
        apply countP_range_single
        · exact lt_max_iff.mpr (Or.inl hrc)
        · simp only [Function.comp]
          rw [if_pos (by omega : 0 < removedCount)]
          simp
        · intro j hj
          simp only [Function.comp]
          split
          · rename_i hjrc
            split
            · rename_i hjac
              simp only [Bool.or_eq_false_iff, beq_eq_false_iff_ne]
              constructor <;> intro hq <;> [skip; skip] <;> omega
            · simp only [Bool.or_eq_false_iff, beq_eq_false_iff_ne]
              constructor <;> intro hq <;> omega
          · split
            · rename_i hjac
              simp only [Bool.or_eq_false_iff, beq_eq_false_iff_ne]
              constructor <;> intro hq <;> omega
            · simp only [Bool.or_eq_false_iff, beq_eq_false_iff_ne]
              constructor <;> intro hq <;> omega
      · have hgt : N < i := by omega
        rw [if_neg (by omega)]
        apply countP_range_zero
        intro j
        simp only [Function.comp]
        split
        · split
          · simp only [Bool.or_eq_false_iff, beq_eq_false_iff_ne]
            constructor <;> intro hq <;> omega
          · simp only [Bool.or_eq_false_iff, beq_eq_false_iff_ne]
            constructor <;> intro hq <;> omega
        · split
          · simp only [Bool.or_eq_false_iff, beq_eq_false_iff_ne]
            constructor <;> intro hq <;> omega
          · simp only [Bool.or_eq_false_iff, beq_eq_false_iff_ne]
            constructor <;> intro hq <;> omega
    · intro row hrow hflagrow
      rcases List.mem_append.mp hrow with hrow | hrow
      · obtain ⟨j, hjmem, hjeq⟩ := List.mem_map.mp hrow
        subst hjeq
        simp only at hflagrow
        rcases Bool.or_eq_true_iff.mp hflagrow with hfl | hfr
        · left
          have hjrc : j < removedCount := by
            by_contra hnot
            rw [if_neg hnot] at hfl
            have : (-1 : Int) = (N : Int) := by simpa [beq_iff_eq] using hfl
            omega
          rw [if_pos hjrc] at hfl
          have hij : i + j = N := by
            have : ((i + j : Nat) : Int) = (N : Int) := by simpa [beq_iff_eq] using hfl
            omega
          rw [hremget j hjrc, hij, List.getElem?_eq_getElem hNlt]
        · right
          have hjac : j < addedCount := by
            by_contra hnot
            rw [if_neg hnot] at hfr
            have : (-1 : Int) = (N : Int) := by simpa [beq_iff_eq] using hfr
            omega
          rw [if_pos hjac] at hfr
          have hij : i + removedCount + j = N := by
            have : ((i + removedCount + j : Nat) : Int) = (N : Int) := by
              simpa [beq_iff_eq] using hfr
            omega
          rw [haddget j hjac, hij, List.getElem?_eq_getElem hNlt]
      · exact ih.2 row hrow hflagrow
  · -- lone added line
    intro i h hadd ih
    have hiN : ¬ i < N := by
      intro hilt
      have := hmin i hilt
      rw [this] at hadd
      exact absurd hadd (by simp)
    rw [DiffTs.rowsStep]
    simp only [hadd]
    by_cases hiq : i = N
    · subst hiq
      constructor
      · rw [List.countP_cons_of_pos _ _ (by simp), ih.1]
        rw [if_pos (le_refl _), if_neg (by omega)]
      · intro row hrow hflagrow
        rcases List.mem_cons.mp hrow with rfl | hrow
        · right
          rfl
        · exact ih.2 row hrow hflagrow
    · constructor
      · rw [List.countP_cons_of_neg _ _ (by
          simp only [beq_iff_eq]
          omega), ih.1]
        rw [if_neg (by omega), if_neg (by omega)]
      · intro row hrow hflagrow
        rcases List.mem_cons.mp hrow with rfl | hrow
        · exfalso
          have : ((i : Nat) : Int) = (N : Int) := by simpa [beq_iff_eq] using hflagrow
          omega
        · exact ih.2 row hrow hflagrow

def c7Chunk : DiffChunk :=
  { oldStart := 1, oldLength := 2, newStart := 1, newLength := 2,
    lines := [⟨.unchanged, some (str "x"), some 1, some 1, none⟩,
              ⟨.removed, some (str "a"), some 2, none, none⟩,
              ⟨.added, some (str "b"), none, some 2, none⟩],
    id := str "c" }

/-- **C7**: for a chunk with at least one changed line, the rows built by
`buildSideBySideRows` (diff.ts) carry `isFirstInChunk = true` on exactly one
row, and that row's left or right cell holds the chunk's first changed line,
whichever branch produced it. -/
theorem buildSideBySideRows_first_flag (chunk : DiffChunk) (contextLines : Int)
    (expandedRegions : List Str) (hctx : 0 ≤ contextLines)
    (hany : chunk.lines.any (fun l => l.type != .unchanged) = true) :
    ∃ (N : Nat) (hN : N < chunk.lines.length),
      chunk.lines.findIdx? (fun l => l.type != .unchanged) = some N ∧
      (DiffTs.buildSideBySideRows [chunk] contextLines expandedRegions).countP
          (fun r => r.isFirstInChunk) = 1 ∧
      ∀ row ∈ DiffTs.buildSideBySideRows [chunk] contextLines expandedRegions,
        row.isFirstInChunk = true →
        (row.left = some chunk.lines[N] ∨ row.right = some chunk.lines[N]) := by
  rcases hfi : chunk.lines.findIdx? (fun l => l.type != .unchanged) with _ | N
  · rw [List.findIdx?_eq_none_iff] at hfi
    rcases List.any_eq_true.mp hany with ⟨l, hl, hpl⟩
    rw [hfi l hl] at hpl
    exact absurd hpl (by simp)
  · obtain ⟨hNlt, hpN, hmin0⟩ := List.findIdx?_eq_some_iff_getElem.mp hfi
    have hchg : ¬ chunk.lines[N].type = .unchanged := by
      simpa using hpN
    have hmin : ∀ j (hj : j < N),
        chunk.lines[j].type = .unchanged := by
      intro j hj
      have := hmin0 j hj
      simpa using this
    have hfcli : DiffTs.firstChangedLineIndex chunk.lines = (N : Int) := by
      simp [DiffTs.firstChangedLineIndex, hfi]
    obtain ⟨e, tl, hcr, hNe⟩ :=
      fcrGo_none_first chunk.lines 0 N hNlt hpN (by simpa using hmin)
    simp only [Nat.zero_add] at hcr hNe
    have hreg := collapsible_sides chunk.lines contextLines hctx N e tl hcr hNe
    have hb : DiffTs.buildSideBySideRows [chunk] contextLines expandedRegions =
        DiffTs.rowsLoop chunk.lines chunk.id (N : Int)
          (computeCollapsibleRegions chunk.lines (findChangeRegions chunk.lines)
            contextLines) expandedRegions 0 := by
      simp [DiffTs.buildSideBySideRows, DiffTs.rowsForChunk, hfcli]
    have hmain := rowsLoop_flag_count chunk.lines chunk.id
      (computeCollapsibleRegions chunk.lines (findChangeRegions chunk.lines)
        contextLines) expandedRegions N hNlt hchg hmin hreg 0
    rw [hb]
    exact ⟨N, hNlt, hfi, by rw [hmain.1]; simp, hmain.2⟩

theorem buildSideBySideRows_first_flag_witness :
    (0 : Int) ≤ 3 ∧ c7Chunk.lines.any (fun l => l.type != .unchanged) = true ∧
    (∃ (N : Nat) (hN : N < c7Chunk.lines.length),
      c7Chunk.lines.findIdx? (fun l => l.type != .unchanged) = some N ∧
      (DiffTs.buildSideBySideRows [c7Chunk] 3 []).countP
          (fun r => r.isFirstInChunk) = 1 ∧
      ∀ row ∈ DiffTs.buildSideBySideRows [c7Chunk] 3 [],
        row.isFirstInChunk = true →
        (row.left = some c7Chunk.lines[N] ∨
          row.right = some c7Chunk.lines[N])) :=
  ⟨by decide, by decide,
    buildSideBySideRows_first_flag c7Chunk 3 [] (by decide) (by decide)⟩

/-- The C10 row invariant: a left cell, if present, is a removed or unchanged
line; a right cell, if present, is an added or unchanged line; a collapsed
placeholder row has both cells empty. -/
def rowOk (row : SideBySideRow) : Bool :=
  (match row.left with
    | none => true
    | some l => l.type == .removed || l.type == .unchanged) &&
  (match row.right with
    | none => true
    | some l => l.type == .added || l.type == .unchanged) &&
  (!row.isCollapsedPlaceholder || (row.left == none && row.right == none))

theorem rowsLoop_rowOk (lines : List DiffLine) (cid : Str) (fCLI : Int)
    (regions : List ChangeRegion) (exp : List Str) :
    ∀ i, (DiffTs.rowsLoop lines cid fCLI regions exp i).all rowOk = true := by
  refine DiffTs.rowsLoop.induct lines cid fCLI regions exp
    (fun i => (DiffTs.rowsLoop lines cid fCLI regions exp i).all rowOk = true)
    (fun i h => (DiffTs.rowsStep lines cid fCLI regions exp i h).all rowOk = true)
    ?_ ?_ ?_ ?_ ?_ ?_ ?_
  · intro i h collapse hfind hcont ih
    rw [DiffTs.rowsLoop]
    simp only [dif_pos h, hfind, hcont, if_true]
    exact ih
  · intro i h collapse hfind hcont ih
    simp only [dite_eq_ite] at ih
    rw [DiffTs.rowsLoop]
    simp only [dif_pos h, hfind]
    rw [if_neg hcont]
    rw [List.all_cons, ih]
    rfl
  · intro i h hfind ih
    rw [DiffTs.rowsLoop]
    simp only [dif_pos h, hfind]
    exact ih
  · intro i hge
    rw [DiffTs.rowsLoop]
    simp only [dif_neg hge]
    rfl
  · intro i h hunch ih
    rw [DiffTs.rowsStep]
    simp only [hunch]
    rw [List.all_cons, ih]
    simp [rowOk, hunch]
  · intro i h hrem remRun removedCount addedRun addedCount ih
    rw [DiffTs.rowsStep]
    simp only [hrem]
    rw [List.all_append, ih, Bool.and_true, List.all_eq_true]
    intro row hrow
    rcases List.mem_map.mp hrow with ⟨j, hj, rfl⟩
    simp only [rowOk, Bool.and_eq_true]
    refine ⟨⟨?_, ?_⟩, by rfl⟩
    · rcases hq : remRun[j]? with _ | l
      · rfl
      · have hmem := List.getElem?_mem hq
        simp only [remRun, List.mem_cons] at hmem
        rcases hmem with rfl | hmem
        · simp [hrem]
        · have := List.mem_takeWhile_imp hmem
          simp only [beq_iff_eq] at this
          simp [this]
    · rcases hq : addedRun[j]? with _ | l
      · rfl
      · have hmem := List.getElem?_mem hq
        have := List.mem_takeWhile_imp hmem
        simp only [beq_iff_eq] at this
        simp [this]
  · intro i h hadd ih
    rw [DiffTs.rowsStep]
    simp only [hadd]
    rw [List.all_cons, ih]
    simp [rowOk, hadd]

/-- **C10**: every row produced by `buildSideBySideRows` (diff.ts) has a left
cell that is empty or a removed/unchanged line, a right cell that is empty or
an added/unchanged line, and every collapsed-placeholder row has both cells
empty — for all chunk lists, context widths and expanded-region sets. -/
theorem buildSideBySideRows_row_sides (chunks : List DiffChunk)
    (contextLines : Int) (expandedRegions : List Str) :
    (DiffTs.buildSideBySideRows chunks contextLines expandedRegions).all
      rowOk = true := by
  rw [DiffTs.buildSideBySideRows, List.all_eq_true]
  intro row hrow
  rcases List.mem_flatten.mp hrow with ⟨rows, hrows, hmem⟩
  rcases List.mem_map.mp hrows with ⟨c, _, rfl⟩
  have := rowsLoop_rowOk c.lines c.id (DiffTs.firstChangedLineIndex c.lines)
    (computeCollapsibleRegions c.lines (findChangeRegions c.lines) contextLines)
    expandedRegions 0
  rw [List.all_eq_true] at this
  exact this row (by simpa [DiffTs.rowsForChunk] using hmem)

theorem pairRuns_length
    (wd : Option Str → Option Str → List WordSegment × List WordSegment) :
    ∀ (rs bs : List DiffLine), (pairRuns wd rs bs).1.length = rs.length ∧
      (pairRuns wd rs bs).2.length = bs.length := by
  intro rs
  induction rs with
  | nil => intro bs; cases bs <;> simp [pairRuns]
  | cons r rs ih =>
    intro bs
    cases bs with
    | nil => simp [pairRuns]
    | cons a bs =>
      have ih' := ih bs
      rcases hw : wd r.content a.content with ⟨o, n⟩
      rcases hp : pairRuns wd rs bs with ⟨rs1, bs1⟩
      rw [hp] at ih'
      simp [pairRuns, hw, hp, ih'.1, ih'.2]

theorem addWordDiffsWith_length
    (wd : Option Str → Option Str → List WordSegment × List WordSegment) :
    ∀ ls, (addWordDiffsWith wd ls).length = ls.length := by
  intro ls
  induction ls using addWordDiffsWith.induct wd with
  | case1 => rw [addWordDiffsWith]
  | case2 l rest hrem remRun afterRem addRun afterAdd rs1 bs1 hp ih =>
    rw [addWordDiffsWith, if_pos hrem]
    have hpl := pairRuns_length wd remRun addRun
    rw [hp] at hpl
    have h1 : remRun.length + afterRem.length = (l :: rest).length := by
      rw [← List.length_append]
      simp only [remRun, afterRem, List.takeWhile_append_dropWhile]
    have h2 : addRun.length + afterAdd.length = afterRem.length := by
      rw [← List.length_append]
      simp only [addRun, afterAdd, List.takeWhile_append_dropWhile]
    simp only [remRun, afterRem, addRun, afterAdd] at hp ih h1 h2 hpl
    simp only [hp, List.length_append, ih, hpl.1, hpl.2]
    simp only [List.length_cons] at h1 ⊢
    omega
  | case3 l rest hrem ih =>
    rw [addWordDiffsWith, if_neg hrem]
    simp [ih]

theorem parseSimpleDiffCore_length :
    ∀ (ls : Lines) (o n : Int), (parseSimpleDiffCore ls o n).1.length = ls.length := by
  intro ls
  induction ls with
  | nil => intro o n; rfl
  | cons l rest ih =>
    intro o n
    simp only [parseSimpleDiffCore]
    split
    · rcases hp : parseSimpleDiffCore rest o (n + 1) with ⟨ds, a, r⟩
      have := ih o (n + 1)
      rw [hp] at this
      simpa [hp] using this
    · split
      · rcases hp : parseSimpleDiffCore rest (o + 1) n with ⟨ds, a, r⟩
        have := ih (o + 1) n
        rw [hp] at this
        simpa [hp] using this
      · rcases hp : parseSimpleDiffCore rest (o + 1) (n + 1) with ⟨ds, a, r⟩
        have := ih (o + 1) (n + 1)
        rw [hp] at this
        simpa [hp] using this

theorem parseSimpleDiffCore_totals :
    ∀ (ls : Lines), hasMarkers ls = true →
    ∀ (o n : Int), 0 < (parseSimpleDiffCore ls o n).2.1 + (parseSimpleDiffCore ls o n).2.2 := by
  intro ls
  induction ls with
  | nil => intro hmk; simp [hasMarkers] at hmk
  | cons l rest ih =>
    intro hmk o n
    simp only [parseSimpleDiffCore]
    by_cases hplus : startsWithL l (str "+") = true
    · rw [if_pos hplus]
      rcases hp : parseSimpleDiffCore rest o (n + 1) with ⟨ds, a, r⟩
      simp [hp]
    · rw [if_neg hplus]
      by_cases hminus : startsWithL l (str "-") = true
      · rw [if_pos hminus]
        rcases hp : parseSimpleDiffCore rest (o + 1) n with ⟨ds, a, r⟩
        simp [hp]
      · rw [if_neg hminus]
        have hrest : hasMarkers rest = true := by
          simp only [hasMarkers, List.any_cons, hplus, hminus,
            Bool.false_or, Bool.or_eq_true] at hmk ⊢
          simpa using hmk
        rcases hp : parseSimpleDiffCore rest (o + 1) (n + 1) with ⟨ds, a, r⟩
        have := ih hrest (o + 1) (n + 1)
        rw [hp] at this
        simpa [hp] using this

theorem hasMarkers_hasNonWs (ls : Lines) (h : hasMarkers ls = true) :
    hasNonWs ls = true := by
  rw [hasMarkers, List.any_eq_true] at h
  rcases h with ⟨l, hl, hpl⟩
  rw [hasNonWs, List.any_eq_true]
  refine ⟨l, hl, ?_⟩
  rw [List.any_eq_true]
  rcases Bool.or_eq_true_iff.mp hpl with hp | hp
  · cases l with
    | nil => simp [startsWithL, str] at hp
    | cons c cs =>
      simp only [str, startsWithL, Bool.and_eq_true, beq_iff_eq] at hp
      exact ⟨c, List.mem_cons_self c cs, by simp [hp.1]⟩
  · cases l with
    | nil => simp [startsWithL, str] at hp
    | cons c cs =>
      simp only [str, startsWithL, Bool.and_eq_true, beq_iff_eq] at hp
      exact ⟨c, List.mem_cons_self c cs, by simp [hp.1]⟩

theorem parseSimpleDiffWith_spec
    (wd : Option Str → Option Str → List WordSegment × List WordSegment)
    (ls : Lines) (hmk : hasMarkers ls = true) :
    ∃ f, parseSimpleDiffWith wd ls = some f ∧ ∃ c, f.chunks = [c] ∧
      c.oldStart = 1 ∧ c.newStart = 1 ∧ c.lines.length = ls.length := by
  rcases hp : parseSimpleDiffCore ls 1 1 with ⟨cl0, tA, tR⟩
  have htot := parseSimpleDiffCore_totals ls hmk 1 1
  rw [hp] at htot
  simp only at htot
  have hlen := parseSimpleDiffCore_length ls 1 1
  rw [hp] at hlen
  simp only at hlen
  have hcond : ¬ ((tA == 0 && tR == 0) = true) := by
    simp only [Bool.and_eq_true, beq_iff_eq, not_and]
    omega
  rw [parseSimpleDiffWith]
  simp only [hp]
  rw [if_neg hcond]
  refine ⟨_, rfl, _, rfl, rfl, rfl, ?_⟩
  simp only [addWordDiffsWith_length]
  exact hlen

/-- A header-only patch: `parsePatch` yields one file entry, which has no
hunks, and the `---`/`+++` lines themselves start with `-`/`+`. -/
def noChunkInput : Lines := [str "--- a/f.txt", str "+++ b/f.txt"]

theorem parseUnifiedDiff_fallback_counterexample :
    hasMarkers noChunkInput = true ∧
    (DiffTs.parseUnifiedDiff noChunkInput).map (fun f => f.chunks) = [[]] := by
  constructor
  · decide
  · simp [DiffTs.parseUnifiedDiff, DiffTs.parsePatch, DiffTs.parsePatchGo,
      DiffTs.extractPathsFromHeaders, DiffTs.sectionsOf, DiffTs.sectionsGo,
      DiffTs.sectionPaths, DiffTs.abHeaderMatch, DiffV1.splitLazyB,
      DiffTs.normalizePath, DiffTs.buildFile, startsWithL, str, jsTrim,
      noChunkInput, DiffV1.parseHunkAt]

/-- **C8** (corrected): when parsing produced *no file entry at all*
(`files.length === 0`, which is what both variants test — not merely "no
parsed file has a chunk") and some line starts with `+` or `-`, both
`parseUnifiedDiff` variants return exactly one synthesized `FileDiff` whose
single chunk starts at old line 1 and new line 1 and has one `DiffLine` per
input line. -/
theorem parseUnifiedDiff_fallback (ls : Lines)
    (hmk : hasMarkers ls = true)
    (h1 : DiffV1.parseUnifiedDiffAux ls [] = [])
    (h2 : DiffTs.parsePatch ls = []) :
    (∃ f, DiffV1.parseUnifiedDiff ls = [f] ∧ ∃ c, f.chunks = [c] ∧
      c.oldStart = 1 ∧ c.newStart = 1 ∧ c.lines.length = ls.length) ∧
    (∃ f, DiffTs.parseUnifiedDiff ls = [f] ∧ ∃ c, f.chunks = [c] ∧
      c.oldStart = 1 ∧ c.newStart = 1 ∧ c.lines.length = ls.length) := by
  have hnws := hasMarkers_hasNonWs ls hmk
  constructor
  · obtain ⟨f, hf, hc⟩ := parseSimpleDiffWith_spec DiffV1.computeWordDiff ls hmk
    refine ⟨f, ?_, hc⟩
    rw [DiffV1.parseUnifiedDiff]
    simp only [h1, List.isEmpty_nil, hnws, hmk, Bool.and_self, if_true, hf]
  · obtain ⟨f, hf, hc⟩ := parseSimpleDiffWith_spec DiffTs.computeWordDiff ls hmk
    refine ⟨f, ?_, hc⟩
    rw [DiffTs.parseUnifiedDiff]
    simp only [h2, List.mapIdx_nil, List.isEmpty_nil, hnws, hmk, Bool.and_self,
      if_true, DiffTs.parseSimpleDiff, hf]

theorem parseUnifiedDiff_fallback_witness :
    hasMarkers [str "+hi"] = true ∧
    DiffV1.parseUnifiedDiffAux [str "+hi"] [] = [] ∧
    DiffTs.parsePatch [str "+hi"] = [] ∧
    ((∃ f, DiffV1.parseUnifiedDiff [str "+hi"] = [f] ∧ ∃ c, f.chunks = [c] ∧
        c.oldStart = 1 ∧ c.newStart = 1 ∧ c.lines.length = [str "+hi"].length) ∧
      (∃ f, DiffTs.parseUnifiedDiff [str "+hi"] = [f] ∧ ∃ c, f.chunks = [c] ∧
        c.oldStart = 1 ∧ c.newStart = 1 ∧ c.lines.length = [str "+hi"].length)) := by
  have h1 : DiffV1.parseUnifiedDiffAux [str "+hi"] [] = [] := by
    simp [DiffV1.parseUnifiedDiffAux, startsWithL, str]
  have h2 : DiffTs.parsePatch [str "+hi"] = [] := by
    simp [DiffTs.parsePatch, DiffTs.parsePatchGo, startsWithL, str]
  exact ⟨by decide, h1, h2, parseUnifiedDiff_fallback [str "+hi"] (by decide) h1 h2⟩

/-- The C9 invariant on one line: `oldLineNumber` is set iff the kind is
removed or unchanged, `newLineNumber` is set iff the kind is added or
unchanged. -/
def lineNumbersOk (l : DiffLine) : Bool :=
  (l.oldLineNumber.isSome == (l.type == .removed || l.type == .unchanged)) &&
  (l.newLineNumber.isSome == (l.type == .added || l.type == .unchanged))

/-- The C9 invariant over a whole `FileDiff`. -/
def fileLinesOk (f : FileDiff) : Bool :=
  f.chunks.all fun c => c.lines.all lineNumbersOk

theorem pairRuns_numbersOk
    (wd : Option Str → Option Str → List WordSegment × List WordSegment) :
    ∀ rs bs : List DiffLine,
      rs.all lineNumbersOk = true → bs.all lineNumbersOk = true →
      (pairRuns wd rs bs).1.all lineNumbersOk = true ∧
        (pairRuns wd rs bs).2.all lineNumbersOk = true := by
  intro rs
  induction rs with
  | nil => intro bs h1 h2; cases bs <;> simp_all [pairRuns]
  | cons r rs ih =>
    intro bs h1 h2
    cases bs with
    | nil => simpa [pairRuns] using h1
    | cons a bs =>
      simp only [List.all_cons, Bool.and_eq_true] at h1 h2
      have ih' := ih bs h1.2 h2.2
      rcases hw : wd r.content a.content with ⟨o, n⟩
      rcases hp : pairRuns wd rs bs with ⟨rs1, bs1⟩
      rw [hp] at ih'
      simp only [pairRuns, hw, hp]
      refine ⟨?_, ?_⟩ <;> simp only [List.all_cons, Bool.and_eq_true]
      · exact ⟨by simpa [lineNumbersOk] using h1.1, ih'.1⟩
      · exact ⟨by simpa [lineNumbersOk] using h2.1, ih'.2⟩

theorem addWordDiffsWith_numbersOk
    (wd : Option Str → Option Str → List WordSegment × List WordSegment) :
    ∀ ls : List DiffLine, ls.all lineNumbersOk = true →
      (addWordDiffsWith wd ls).all lineNumbersOk = true := by
  intro ls
  induction ls using addWordDiffsWith.induct wd with
  | case1 => intro h; rw [addWordDiffsWith]; exact h
  | case2 l rest hrem remRun afterRem addRun afterAdd rs1 bs1 hp ih =>
    intro h
    rw [addWordDiffsWith, if_pos hrem]
    have hsub : ∀ x ∈ afterRem, x ∈ l :: rest := fun x hx =>
      (List.dropWhile_suffix _).subset hx
    have hrun : remRun.all lineNumbersOk = true := by
      rw [List.all_eq_true]
      intro x hx
      exact List.all_eq_true.mp h x ((List.takeWhile_prefix _).subset hx)
    have hadd : addRun.all lineNumbersOk = true := by
      rw [List.all_eq_true]
      intro x hx
      exact List.all_eq_true.mp h x (hsub x ((List.takeWhile_prefix _).subset hx))
    have haft : afterAdd.all lineNumbersOk = true := by
      rw [List.all_eq_true]
      intro x hx
      exact List.all_eq_true.mp h x (hsub x ((List.dropWhile_suffix _).subset hx))
    have hpair := pairRuns_numbersOk wd remRun addRun hrun hadd
    rw [hp] at hpair
    simp only [remRun, afterRem, addRun, afterAdd] at hp hpair haft ih
    simp only [hp, List.all_append, Bool.and_eq_true]
    exact ⟨⟨hpair.1, hpair.2⟩, ih haft⟩
  | case3 l rest hrem ih =>
    intro h
    rw [addWordDiffsWith, if_neg hrem]
    simp only [List.all_cons, Bool.and_eq_true] at h ⊢
    exact ⟨h.1, ih h.2⟩

theorem groupRuns_all (p : DiffLine → Bool) :
    ∀ ps : List (DiffLine × Bool), (∀ q ∈ ps, p q.1 = true) →
      ∀ c ∈ groupRuns ps, c.all p = true := by
  intro ps
  induction ps using groupRuns.induct with
  | case1 => intro _ c hc; simp [groupRuns] at hc
  | case2 l rest ih =>
    intro h c hc
    rw [groupRuns] at hc
    rw [if_pos rfl] at hc
    rcases List.mem_cons.mp hc with rfl | hc
    · simp only [List.all_cons, Bool.and_eq_true]
      refine ⟨h (l, true) (List.mem_cons_self _ _), ?_⟩
      rw [List.all_eq_true]
      intro x hx
      rcases List.mem_map.mp hx with ⟨q, hq, rfl⟩
      exact h q (List.mem_cons_of_mem _ ((List.takeWhile_prefix _).subset hq))
    · exact ih (fun q hq =>
        h q (List.mem_cons_of_mem _ ((List.dropWhile_suffix _).subset hq))) c hc
  | case3 l b rest hb ih =>
    intro h c hc
    rw [groupRuns] at hc
    rw [if_neg hb] at hc
    exact ih (fun q hq => h q (List.mem_cons_of_mem _ hq)) c hc

theorem groupIntoChunks_all (p : DiffLine → Bool) (lines : List DiffLine)
    (h : lines.all p = true) :
    ∀ c ∈ groupIntoChunks lines, c.all p = true := by
  intro c hc
  simp only [groupIntoChunks] at hc
  split at hc
  · simp at hc
  · split at hc
    · rw [List.mem_singleton] at hc
      subst hc
      exact h
    · split at hc
      · rw [List.mem_singleton] at hc
        subst hc
        exact h
      · refine groupRuns_all p _ ?_ c hc
        intro q hq
        exact List.all_eq_true.mp h q.1 (List.of_mem_zip hq).1

theorem linesFromEdits_numbersOk : ∀ (es : List Edit) (o n : Int),
    (DiffV1.linesFromEdits es o n).all lineNumbersOk = true := by
  intro es
  induction es with
  | nil => intro o n; rfl
  | cons e es ih =>
    intro o n
    cases he : e.type <;>
      simp [DiffV1.linesFromEdits, he, lineNumbersOk, ih]

theorem computeDiffV1_numbersOk (oldLines newLines : List Str)
    (fileName : Option Str) :
    fileLinesOk (DiffV1.computeDiff oldLines newLines fileName) = true := by
  simp only [fileLinesOk, DiffV1.computeDiff]
  rw [List.all_eq_true]
  intro x hx
  rw [List.mem_mapIdx] at hx
  rcases hx with ⟨i, hi, rfl⟩
  exact groupIntoChunks_all _ _
    (addWordDiffsWith_numbersOk _ _ (linesFromEdits_numbersOk _ _ _)) _
    (List.getElem_mem hi)

theorem linesOfChange_numbersOk (added removed : Bool) :
    ∀ (cs : List Str) (o n : Int),
      (DiffTs.linesOfChange added removed cs o n).1.all lineNumbersOk = true := by
  intro cs
  induction cs with
  | nil => intro o n; rfl
  | cons content rest ih =>
    intro o n
    simp only [DiffTs.linesOfChange]
    split
    · rcases hp : DiffTs.linesOfChange added removed rest o (n + 1) with ⟨ds, o', n'⟩
      have := ih o (n + 1)
      rw [hp] at this
      simpa [hp, lineNumbersOk] using this
    · split
      · rcases hp : DiffTs.linesOfChange added removed rest (o + 1) n with ⟨ds, o', n'⟩
        have := ih (o + 1) n
        rw [hp] at this
        simpa [hp, lineNumbersOk] using this
      · rcases hp : DiffTs.linesOfChange added removed rest (o + 1) (n + 1) with ⟨ds, o', n'⟩
        have := ih (o + 1) (n + 1)
        rw [hp] at this
        simpa [hp, lineNumbersOk] using this

theorem linesFromChanges_numbersOk : ∀ (chs : List DiffTs.JsDiffChange) (o n : Int),
    (DiffTs.linesFromChanges chs o n).all lineNumbersOk = true := by
  intro chs
  induction chs with
  | nil => intro o n; rfl
  | cons ch rest ih =>
    intro o n
    simp only [DiffTs.linesFromChanges]
    rcases hp : DiffTs.linesOfChange ch.added ch.removed
        (DiffTs.splitChangeLines ch.value) o n with ⟨ds, o', n'⟩
    have h1 := linesOfChange_numbersOk ch.added ch.removed
      (DiffTs.splitChangeLines ch.value) o n
    rw [hp] at h1
    simp only [List.all_append, Bool.and_eq_true]
    exact ⟨h1, ih o' n'⟩

theorem computeDiffTs_numbersOk (changes : List DiffTs.JsDiffChange)
    (fileName : Option Str) :
    fileLinesOk (DiffTs.computeDiff changes fileName) = true := by
  simp only [fileLinesOk, DiffTs.computeDiff]
  rw [List.all_eq_true]
  intro x hx
  rw [List.mem_mapIdx] at hx
  rcases hx with ⟨i, hi, rfl⟩
  exact groupIntoChunks_all _ _
    (addWordDiffsWith_numbersOk _ _ (linesFromChanges_numbersOk _ _ _)) _
    (List.getElem_mem hi)

theorem parseSimpleDiffCore_numbersOk :
    ∀ (ls : Lines) (o n : Int),
      (parseSimpleDiffCore ls o n).1.all lineNumbersOk = true := by
  intro ls
  induction ls with
  | nil => intro o n; rfl
  | cons l rest ih =>
    intro o n
    simp only [parseSimpleDiffCore]
    split
    · rcases hp : parseSimpleDiffCore rest o (n + 1) with ⟨ds, a, r⟩
      have := ih o (n + 1)
      rw [hp] at this
      simpa [hp, lineNumbersOk] using this
    · split
      · rcases hp : parseSimpleDiffCore rest (o + 1) n with ⟨ds, a, r⟩
        have := ih (o + 1) n
        rw [hp] at this
        simpa [hp, lineNumbersOk] using this
      · rcases hp : parseSimpleDiffCore rest (o + 1) (n + 1) with ⟨ds, a, r⟩
        have := ih (o + 1) (n + 1)
        rw [hp] at this
        simpa [hp, lineNumbersOk] using this

theorem parseSimpleDiffWith_numbersOk
    (wd : Option Str → Option Str → List WordSegment × List WordSegment)
    (ls : Lines) (f : FileDiff) (h : parseSimpleDiffWith wd ls = some f) :
    fileLinesOk f = true := by
  rcases hp : parseSimpleDiffCore ls 1 1 with ⟨cl0, tA, tR⟩
  rw [parseSimpleDiffWith] at h
  simp only [hp] at h
  split at h
  · exact absurd h (by simp)
  · rw [Option.some.injEq] at h
    subst h
    have hok := parseSimpleDiffCore_numbersOk ls 1 1
    rw [hp] at hok
    simp only [fileLinesOk, List.all_cons, List.all_nil, Bool.and_true]
    exact addWordDiffsWith_numbersOk wd cl0 hok

theorem parseHunkBody_numbersOk (ls : Lines) :
    ∀ o n, (DiffV1.parseHunkBody ls o n).lines.all lineNumbersOk = true := by
  induction ls with
  | nil => intro o n; rfl
  | cons l rest ih =>
    intro o n
    simp only [DiffV1.parseHunkBody]
    split
    · rfl
    · split
      · simpa [lineNumbersOk] using ih o (n + 1)
      · split
        · simpa [lineNumbersOk] using ih (o + 1) n
        · split
          · simpa [lineNumbersOk] using ih (o + 1) (n + 1)
          · split
            · exact ih o n
            · rfl

theorem hunkLines_numbersOk :
    ∀ (ls : List Str) (o n : Int),
      (DiffTs.hunkLines ls o n).1.all lineNumbersOk = true := by
  intro ls
  induction ls with
  | nil => intro o n; rfl
  | cons l rest ih =>
    intro o n
    simp only [DiffTs.hunkLines]
    split
    · exact ih o n
    · split
      · rcases hp : DiffTs.hunkLines rest o (n + 1) with ⟨ds, a, d⟩
        have := ih o (n + 1)
        rw [hp] at this
        simpa [hp, lineNumbersOk] using this
      · split
        · rcases hp : DiffTs.hunkLines rest (o + 1) n with ⟨ds, a, d⟩
          have := ih (o + 1) n
          rw [hp] at this
          simpa [hp, lineNumbersOk] using this
        · rcases hp : DiffTs.hunkLines rest (o + 1) (n + 1) with ⟨ds, a, d⟩
          have := ih (o + 1) (n + 1)
          rw [hp] at this
          simpa [hp, lineNumbersOk] using this

theorem parseHunksAux_numbersOk (oldPath newPath : Str) (ls : Lines)
    (chunks : List DiffChunk) (tA tR chunkIdx : Nat) :
    chunks.all (fun c => c.lines.all lineNumbersOk) = true →
    (DiffV1.parseHunksAux oldPath newPath ls chunks tA tR chunkIdx).1.all
      (fun c => c.lines.all lineNumbersOk) = true := by
  induction ls, chunks, tA, tR, chunkIdx using DiffV1.parseHunksAux.induct oldPath newPath with
  | case1 chunks tA tR x => intro h; simpa [DiffV1.parseHunksAux] using h
  | case2 l rest chunks tA tR chunkIdx h1 => intro h; simpa [DiffV1.parseHunksAux, h1] using h
  | case3 l rest chunks tA tR chunkIdx h1 h2 h3 ih =>
    intro h
    simp only [DiffV1.parseHunksAux, if_neg h1, if_pos h2, h3]
    exact ih h
  | case4 l rest chunks tA tR chunkIdx h1 h2 oldStart oldLenOpt newStart newLenOpt h3 b hb ih =>
    intro h
    simp only [DiffV1.parseHunksAux, if_neg h1, if_pos h2, h3]
    simp only [b] at hb ih ⊢
    rw [if_pos hb]
    exact ih h
  | case5 l rest chunks tA tR chunkIdx h1 h2 oldStart oldLenOpt newStart newLenOpt h3 b hb ih =>
    intro h
    simp only [DiffV1.parseHunksAux, if_neg h1, if_pos h2, h3]
    simp only [b] at hb ih ⊢
    rw [if_neg hb]
    refine ih ?_
    simp only [List.all_append, List.all_cons, List.all_nil, Bool.and_true, Bool.and_eq_true]
    refine ⟨h, ?_⟩
    exact addWordDiffsWith_numbersOk _ _ (parseHunkBody_numbersOk rest oldStart newStart)
  | case6 l rest chunks tA tR chunkIdx h1 h2 ih =>
    intro h
    simp only [DiffV1.parseHunksAux, if_neg h1, if_neg h2]
    exact ih h

theorem parseHunks_numbersOk (ls : Lines) (oldPath newPath : Str) (f : FileDiff)
    (rem : Lines) (h : DiffV1.parseHunks ls oldPath newPath = some (f, rem)) :
    fileLinesOk f = true := by
  have hall := parseHunksAux_numbersOk oldPath newPath ls [] 0 0 0 rfl
  unfold DiffV1.parseHunks at h
  rcases hq : DiffV1.parseHunksAux oldPath newPath ls [] 0 0 0 with ⟨chunks, tA, tR, rest⟩
  rw [hq] at h hall
  by_cases hc : chunks.isEmpty
  · simp [hc] at h
  · simp only [hc, Bool.false_eq_true, if_false, Option.some.injEq, Prod.mk.injEq] at h
    rw [← h.1]
    exact hall

theorem parseOneFile_numbersOk (ls : Lines) (f : FileDiff) (rem : Lines)
    (h : DiffV1.parseOneFile ls = some (f, rem)) : fileLinesOk f = true := by
  simp only [DiffV1.parseOneFile] at h
  exact parseHunks_numbersOk _ _ _ _ _ h

theorem parseUnifiedDiffAux_numbersOk : ∀ (ls : Lines) (files : List FileDiff),
    files.all fileLinesOk = true →
    (DiffV1.parseUnifiedDiffAux ls files).all fileLinesOk = true := by
  intro ls files
  induction ls, files using DiffV1.parseUnifiedDiffAux.induct with
  | case1 files => intro h; simpa [DiffV1.parseUnifiedDiffAux] using h
  | case2 l rest files hcond f rem hp ih =>
    intro h
    simp only [DiffV1.parseUnifiedDiffAux, if_pos hcond]
    split
    · rename_i f' rem' heq
      rw [hp, Option.some.injEq, Prod.mk.injEq] at heq
      obtain ⟨rfl, rfl⟩ := heq
      refine ih ?_
      simp only [List.all_append, List.all_cons, List.all_nil, Bool.and_true,
        Bool.and_eq_true]
      exact ⟨h, parseOneFile_numbersOk _ _ _ hp⟩
    · rename_i heq
      rw [hp] at heq
      exact absurd heq (by simp)
  | case3 l rest files hcond hp ih =>
    intro h
    simp only [DiffV1.parseUnifiedDiffAux, if_pos hcond]
    split
    · rename_i f' rem' heq
      rw [hp] at heq
      exact absurd heq (by simp)
    · exact ih h
  | case4 l rest files hcond1 hcond2 f rem hp ih =>
    intro h
    simp only [DiffV1.parseUnifiedDiffAux, if_neg hcond1, if_pos hcond2]
    split
    · rename_i f' rem' heq
      rw [hp, Option.some.injEq, Prod.mk.injEq] at heq
      obtain ⟨rfl, rfl⟩ := heq
      refine ih ?_
      simp only [List.all_append, List.all_cons, List.all_nil, Bool.and_true,
        Bool.and_eq_true]
      exact ⟨h, parseHunks_numbersOk _ _ _ _ _ hp⟩
    · rename_i heq
      rw [hp] at heq
      exact absurd heq (by simp)
  | case5 l rest files hcond1 hcond2 hp ih =>
    intro h
    simp only [DiffV1.parseUnifiedDiffAux, if_neg hcond1, if_pos hcond2]
    split
    · rename_i f' rem' heq
      rw [hp] at heq
      exact absurd heq (by simp)
    · exact ih h
  | case6 l rest files hcond1 hcond2 ih =>
    intro h
    simp only [DiffV1.parseUnifiedDiffAux, if_neg hcond1, if_neg hcond2]
    exact ih h

theorem parseUnifiedDiffV1_numbersOk (ls : Lines) :
    (DiffV1.parseUnifiedDiff ls).all fileLinesOk = true := by
  simp only [DiffV1.parseUnifiedDiff]
  split
  · split
    · rcases hq : parseSimpleDiffWith DiffV1.computeWordDiff ls with _ | f
      · simp [hq]
      · simp only [hq, List.all_cons, List.all_nil, Bool.and_true]
        exact parseSimpleDiffWith_numbersOk _ _ _ hq
    · rfl
  · exact parseUnifiedDiffAux_numbersOk ls [] rfl

theorem buildFile_numbersOk (file : DiffTs.ParsedFile) (fb : Option (Str × Str)) :
    fileLinesOk (DiffTs.buildFile file fb) = true := by
  simp only [fileLinesOk, DiffTs.buildFile]
  rw [List.all_eq_true]
  intro x hx
  rw [List.mem_map] at hx
  rcases hx with ⟨y, hy, rfl⟩
  rw [List.mem_mapIdx] at hy
  rcases hy with ⟨i, hi, rfl⟩
  rcases hq : DiffTs.hunkLines (file.hunks[i]).lines (file.hunks[i]).oldStart
      (file.hunks[i]).newStart with ⟨cl, a, d⟩
  have hok := hunkLines_numbersOk (file.hunks[i]).lines (file.hunks[i]).oldStart
    (file.hunks[i]).newStart
  rw [hq] at hok
  simp only [hq]
  exact addWordDiffsWith_numbersOk _ _ hok

theorem parseUnifiedDiffTs_numbersOk (ls : Lines) :
    (DiffTs.parseUnifiedDiff ls).all fileLinesOk = true := by
  simp only [DiffTs.parseUnifiedDiff]
  split
  · split
    · rcases hq : DiffTs.parseSimpleDiff ls with _ | f
      · simp [hq]
      · simp only [hq, List.all_cons, List.all_nil, Bool.and_true]
        exact parseSimpleDiffWith_numbersOk DiffTs.computeWordDiff _ _ hq
    · rfl
  · rw [List.all_eq_true]
    intro x hx
    rw [List.mem_mapIdx] at hx
    rcases hx with ⟨i, hi, rfl⟩
    exact buildFile_numbersOk _ _

/-- **C9**: every line of every chunk of every `FileDiff` returned by either
variant's `computeDiff` (for `diff.ts` as a function of the external change
list, hence for every change list) or `parseUnifiedDiff` has `oldLineNumber`
set exactly when its kind is removed or unchanged and `newLineNumber` set
exactly when its kind is added or unchanged. -/
theorem line_numbers_invariant :
    (∀ (oldLines newLines : List Str) (fileName : Option Str),
      fileLinesOk (DiffV1.computeDiff oldLines newLines fileName) = true) ∧
    (∀ ls : Lines, (DiffV1.parseUnifiedDiff ls).all fileLinesOk = true) ∧
    (∀ (changes : List DiffTs.JsDiffChange) (fileName : Option Str),
      fileLinesOk (DiffTs.computeDiff changes fileName) = true) ∧
    (∀ ls : Lines, (DiffTs.parseUnifiedDiff ls).all fileLinesOk = true) :=
  ⟨computeDiffV1_numbersOk, parseUnifiedDiffV1_numbersOk,
    computeDiffTs_numbersOk, parseUnifiedDiffTs_numbersOk⟩
